import Mathlib

/-!
Verification of the layout-aware field-extraction engine of
`src/AI/digitalizer/super_pipeline.py`.

The Python source is shallowly embedded: strings become `List Char` / `String`,
Python `int` becomes `Int`, floats that only ever hold exact decimal values
become `Rat`, dictionaries with a fixed key set become structures, and `None`
becomes `Option`.  Modelling conventions, noted again at each definition:

* Python `int(x)` truncation toward zero on a half-integer is `pyHalf`,
  written with Euclidean division so that `omega` can reason about it.
* Unicode NFKC normalization is modelled as the identity map (it is the
  identity on all ASCII text, which is the only text the claims exercise);
  case folding is ASCII case folding (`Char.toLower`), and Python's `\s`,
  `\w` and `str.strip` character classes are modelled by their ASCII parts.
* The regular expressions of the source are compiled by hand into a small
  deterministic token machine (`PTok`); each compiled pattern is noted next
  to the regex literal it implements.  Determinism is sound here because in
  every pattern a starred character class is followed by a literal starting
  with a character outside the class, so greedy matching never backtracks.
-/

/-- ASCII part of Python's whitespace class `\s` (also used by `str.split`
and `str.strip`). -/
def isPySpace (c : Char) : Bool :=
  c = ' ' || c = '\t' || c = '\n' || c = '\r' || c = '\x0b' || c = '\x0c'

/-- ASCII part of Python's word class `\w`, used for `\b` boundaries. -/
def isWordChar (c : Char) : Bool :=
  c.isAlphanum || c = '_'

/-- Zero-width characters U+200B, U+200C and U+200D removed by `normalize`. -/
def isZeroWidth (c : Char) : Bool :=
  c = '​' || c = '‌' || c = '‍'

/-- Character-level part of `normalize`: Devanagari digits to ASCII digits
(`DEVANAGARI_DIGITS_TBL`), typographic dashes and quotes folded to ASCII,
then lower-casing.  NFKC is modelled as the identity. -/
def normChar (c : Char) : Char :=
  if '०' ≤ c && c ≤ '९' then Char.ofNat (c.toNat - '०'.toNat + '0'.toNat)
  else if c = '–' || c = '—' then '-'
  else if c = '’' || c = '‘' then '\''
  else if c = '”' || c = '“' then '"'
  else c.toLower

/-- Tail-recursive splitter behind `pyWords`; `acc` holds the current word
reversed. -/
def wordsAux : List Char → List Char → List (List Char)
  | [], acc => if acc.isEmpty then [] else [acc.reverse]
  | c :: rest, acc =>
    if isPySpace c then
      if acc.isEmpty then wordsAux rest [] else acc.reverse :: wordsAux rest []
    else wordsAux rest (c :: acc)

/-- Python `s.split()`: maximal runs of non-whitespace characters. -/
def pyWords (l : List Char) : List (List Char) := wordsAux l []

/-- Join words with single spaces. -/
def joinSp : List (List Char) → List Char
  | [] => []
  | [w] => w
  | w :: ws => w ++ ' ' :: joinSp ws

/-- Strip characters satisfying `p` from both ends (Python `str.strip`). -/
def pyStripSet (p : Char → Bool) (l : List Char) : List Char :=
  ((l.dropWhile p).reverse.dropWhile p).reverse

/-- Python `str.strip()` with no argument. -/
def pyStripWs (l : List Char) : List Char := pyStripSet isPySpace l

/-- The source's `normalize`: digit translation, punctuation folding,
lower-casing, zero-width removal, then whitespace collapse and trim
(`re.sub(r"\s+", " ", s).strip()`, which equals joining `s.split()` by
single spaces). -/
def normalizeText (s : String) : String :=
  String.mk (joinSp (pyWords ((s.data.map normChar).filter (fun c => !isZeroWidth c))))

/-- Python `s.split()` returning strings, used by the claimant/spouse
post-fix in `extract_page_fields`. -/
def pySplit (s : String) : List String := (pyWords s.data).map String.mk

/-- Python `int(x)` where `x` is half of the integer `s` (truncation toward
zero), e.g. `int(0.5*(y1+y2))` and `int(np.median([...]))` on two middle
values. -/
def pyHalf (s : Int) : Int := if 0 ≤ s then s / 2 else -((-s) / 2)

/-- Token of the hand-compiled regular expressions: a case-insensitive
literal, a greedy character-class star or plus, or an optional single
character. -/
inductive PTok : Type where
  | lit : List Char → PTok
  | star : (Char → Bool) → PTok
  | plus : (Char → Bool) → PTok
  | opt : Char → PTok

/-- Match a literal case-insensitively (ASCII case folding, as `re.I` on the
ASCII literals of the source), returning the rest of the input. -/
def litMatch : List Char → List Char → Option (List Char)
  | [], l => some l
  | _ :: _, [] => none
  | w :: ws, c :: cs => if c.toLower = w.toLower then litMatch ws cs else none

/-- Run a compiled pattern on the input, returning the unconsumed suffix.
Greedy and deterministic; see the module comment for why this coincides
with the source regexes. -/
def ptoksMatch : List PTok → List Char → Option (List Char)
  | [], l => some l
  | .lit w :: ts, l => (litMatch w l).bind (ptoksMatch ts)
  | .star p :: ts, l => ptoksMatch ts (l.dropWhile p)
  | .plus p :: ts, l =>
    match l with
    | [] => none
    | c :: cs => if p c then ptoksMatch ts (cs.dropWhile p) else none
  | .opt c :: ts, l =>
    match l with
    | [] => ptoksMatch ts []
    | d :: ds =>
      if d.toLower = c.toLower then
        match ptoksMatch ts ds with
        | some r => some r
        | none => ptoksMatch ts (d :: ds)
      else ptoksMatch ts (d :: ds)

/-- Word-boundary test on the character before a match whose first matched
character is a word character. -/
def prevOk : Option Char → Bool
  | none => true
  | some c => !isWordChar c

/-- Word-boundary test after a match whose last matched character is a word
character. -/
def endOk : List Char → Bool
  | [] => true
  | c :: _ => !isWordChar c

/-- Character class `[-\s]` of `self[-\s]*cultivation`. -/
def wsDash (c : Char) : Bool := c = '-' || isPySpace c

/-- The alternatives of `STOP_LABEL_PAT`, hand-compiled, in the source's
alternation order:
`name of|address|village|gram\s*panchayat|gp|tehs?il|taluka|district|scheduled|other\s+traditional|nature of claim|evidence|extent of|habitation|self[-\s]*cultivation|signature|thumb impression`. -/
def stopAlts : List (List PTok) :=
  [ [.lit "name of".data],
    [.lit "address".data],
    [.lit "village".data],
    [.lit "gram".data, .star isPySpace, .lit "panchayat".data],
    [.lit "gp".data],
    [.lit "teh".data, .opt 's', .lit "il".data],
    [.lit "taluka".data],
    [.lit "district".data],
    [.lit "scheduled".data],
    [.lit "other".data, .plus isPySpace, .lit "traditional".data],
    [.lit "nature of claim".data],
    [.lit "evidence".data],
    [.lit "extent of".data],
    [.lit "habitation".data],
    [.lit "self".data, .star wsDash, .lit "cultivation".data],
    [.lit "signature".data],
    [.lit "thumb impression".data] ]

/-- One alternative matches here and its trailing `\b` holds. -/
def altHit (ts : List PTok) (l : List Char) : Bool :=
  match ptoksMatch ts l with
  | some rem => endOk rem
  | none => false

/-- `STOP_LABEL_PAT` matches at this position: the leading `\b` holds
(every alternative starts with a letter, so the boundary is exactly
`prevOk`) and some alternative matches with its trailing `\b`. -/
def matchHere (prev : Option Char) (l : List Char) : Bool :=
  prevOk prev && stopAlts.any (fun ts => altHit ts l)

/-- Text before the leftmost `STOP_LABEL_PAT` match, i.e. `m[0]` of
`STOP_LABEL_PAT.split(text)`; the whole text when there is no match. -/
def cutCore : Option Char → List Char → List Char
  | _, [] => []
  | prev, c :: rest =>
    if matchHere prev (c :: rest) then [] else c :: cutCore (some c) rest

/-- The source's `cut_at_next_label`: the part of the text before the first
stop label, stripped. -/
def cutAtNextLabel (s : String) : String :=
  String.mk (pyStripWs (cutCore none s.data))

/-- Boundary context after passing over `a`: its last character, or the
previous context when `a` is empty. -/
def lastCtx (prev : Option Char) (a : List Char) : Option Char :=
  match a.getLast? with
  | some c => some c
  | none => prev

/-- No `STOP_LABEL_PAT` match starts anywhere in the text, `prev` being the
character just before it. -/
def noStop : Option Char → List Char → Bool
  | _, [] => true
  | prev, c :: rest => !matchHere prev (c :: rest) && noStop (some c) rest

/-- Well-formedness of a compiled stop-label alternative: it ends with a
literal whose last character is a letter, and every optional character
differs case-insensitively from the first character of the literal that
follows it.  All seventeen alternatives of `stopAlts` satisfy this. -/
def wfToks : List PTok → Bool
  | [] => false
  | [.lit w] => w.getLast?.elim false Char.isAlpha
  | .lit _ :: t :: ts => wfToks (t :: ts)
  | .star _ :: ts => wfToks ts
  | .plus _ :: ts => wfToks ts
  | .opt c :: ts =>
    match ts with
    | .lit (x :: _) :: _ => (c.toLower != x.toLower) && wfToks ts
    | _ => false

/-- A compiled regex with optional `\b` at either end.  The `\b` encoding by
`prevOk` / `endOk` is valid because every bounded pattern of the source
starts and ends with a word character. -/
structure Pat : Type where
  bStart : Bool
  toks : List PTok
  bEnd : Bool

/-- The pattern matches starting exactly at this position (`prev` is the
character just before it). -/
def patHitAt (p : Pat) (prev : Option Char) (l : List Char) : Bool :=
  (!p.bStart || prevOk prev) &&
  (match ptoksMatch p.toks l with
   | some rem => !p.bEnd || endOk rem
   | none => false)

/-- Helper of `reSearch`: does the pattern match at any position of `l`,
`prev` being the character before `l`. -/
def patSearchFrom (p : Pat) : Option Char → List Char → Bool
  | prev, [] => patHitAt p prev []
  | prev, c :: cs => patHitAt p prev (c :: cs) || patSearchFrom p (some c) cs

/-- Python `re.search(pattern, l) is not None` for a hand-compiled pattern. -/
def reSearch (p : Pat) (l : List Char) : Bool := patSearchFrom p none l

/-- Compiled `\bw\b` for a literal word `w`, as in `re.search(r"\byes\b", t)`. -/
def wordPat (w : String) : Pat := ⟨true, [.lit w.data], true⟩

/-- Stable insertion step: `a` goes before the first element whose key is
not smaller, so elements with equal keys keep their original order, as
Python's stable `sorted`. -/
def insByKey {α : Type} (k : α → Int) (a : α) : List α → List α
  | [] => [a]
  | b :: l => if k b < k a then b :: insByKey k a l else a :: b :: l

/-- Python `sorted(l, key=k)` (stable). -/
def sortByKey {α : Type} (k : α → Int) (l : List α) : List α :=
  l.foldr (insByKey k) []

/-- `int(np.median(l))` on a nonempty integer list: middle element of the
sorted list, or the two middle elements averaged and truncated toward
zero. -/
def medianInt (l : List Int) : Int :=
  let s := sortByKey id l
  let n := s.length
  if n % 2 = 1 then s.getD (n / 2) 0
  else pyHalf (s.getD (n / 2 - 1) 0 + s.getD (n / 2) 0)

/-- Bounding rectangle of an OCR item, `rect_from_bbox(it["bbox"])`:
`x1 ≤ x2` and `y1 ≤ y2` hold for the source's axis-aligned quads. -/
structure Rect : Type where
  x1 : Int
  y1 : Int
  x2 : Int
  y2 : Int
deriving DecidableEq, Repr

/-- An OCR item `{text, confidence, bbox}`; the quad `bbox` is represented
by its bounding rectangle, the only form the extraction code consumes
(confidence is never read by the extraction stage and is omitted). -/
structure Item : Type where
  text : String
  box : Rect
deriving DecidableEq, Repr

/-- `mid_y` of `group_by_lines`: `int(0.5*(y1+y2))`. -/
def midY (it : Item) : Int := pyHalf (it.box.y1 + it.box.y2)

/-- A text line under construction: running median `y`, the collected
vertical centers `y_vals`, and the member items. -/
structure Line : Type where
  y : Int
  yVals : List Int
  items : List Item
deriving DecidableEq, Repr

/-- First-fit placement of one item into the line list: join the first line
whose running median is within `yTol` (appending the item and recomputing
the median), else append a new line at the end. -/
def insLine (yTol : Int) (it : Item) : List Line → List Line
  | [] => [⟨midY it, [midY it], [it]⟩]
  | ln :: rest =>
    if |ln.y - midY it| ≤ yTol then
      ⟨medianInt (ln.yVals ++ [midY it]), ln.yVals ++ [midY it],
        ln.items ++ [it]⟩ :: rest
    else ln :: insLine yTol it rest

/-- `y_tol = max(10.0, int(page_h * 0.02))`; the float truncation is
modelled as exact rational truncation, which agrees for positive heights. -/
def yTolOf (pageH : Int) : Int := max 10 ((pageH * 2) / 100)

/-- The source's `group_by_lines`: process items sorted by vertical center,
first-fit against running medians, then sort each line's items by
horizontal origin. -/
def groupByLines (items : List Item) (pageH : Int) : List Line :=
  if items.isEmpty then []
  else
    let lns := (sortByKey midY items).foldl
      (fun L it => insLine (yTolOf pageH) it L) []
    lns.map (fun ln => ⟨ln.y, ln.yVals, sortByKey (fun it => it.box.x1) ln.items⟩)

/-- The source's `join_items_text`: `" ".join(texts).strip()`. -/
def joinItemsText (items : List Item) : String :=
  String.mk (pyStripWs (joinSp (items.map (fun it => it.text.data))))

/-- Index of the line whose `y` is nearest to `am` (first strict minimum,
starting from the sentinel `1e9`), as in the anchor-line searches. -/
def nearestLineIdx (lines : List Line) (am : Int) : Option Nat :=
  (lines.foldl
    (fun (st : Option Nat × Int × Nat) ln =>
      if |ln.y - am| < st.2.1 then (some st.2.2, |ln.y - am|, st.2.2 + 1)
      else (st.1, st.2.1, st.2.2 + 1))
    (none, 10 ^ 9, 0)).1

/-- The source's `collect_right_bounded`: tokens of the anchor's nearest
line whose horizontal origin is strictly right of the anchor plus a gap and
within `max(x_gap, page_w*0.45)`; if none and allowed, retry on the next
line.  The float product `page_w*0.45` is modelled as exact truncation. -/
def collectRightBounded (items : List Item) (aRect : Rect) (pageW pageH : Int)
    (xGap : Int) (includeNextLine : Bool) : List Item :=
  let lines := groupByLines items pageH
  let am := pyHalf (aRect.y1 + aRect.y2)
  let maxX := aRect.x2 + max xGap ((pageW * 45) / 100)
  let collect := fun (ln : Line) =>
    ln.items.filter (fun it => aRect.x2 + xGap < it.box.x1 && it.box.x1 ≤ maxX)
  match nearestLineIdx lines am with
  | none => []
  | some i =>
    let first := match lines.get? i with
      | some ln => collect ln
      | none => []
    if includeNextLine && first.isEmpty then
      first ++ (match lines.get? (i + 1) with
        | some ln => collect ln
        | none => [])
    else first

/-- The source's `collect_below_same_column`: tokens of the `linesDown`
lines after the anchor's nearest line whose horizontal center lies within
the padded anchor column (`page_w*0.18` modelled as exact truncation;
Python `//` is the Euclidean `/` here). -/
def collectBelowSameColumn (items : List Item) (aRect : Rect) (pageW pageH : Int)
    (xPad : Int) (linesDown : Nat) : List Item :=
  let lines := groupByLines items pageH
  let am := pyHalf (aRect.y1 + aRect.y2)
  match nearestLineIdx lines am with
  | none => []
  | some i =>
    let xL := max 0 (aRect.x1 - xPad)
    let xR := min (pageW - 1) (aRect.x2 + (pageW * 18) / 100)
    (List.range' (i + 1) linesDown).flatMap (fun k =>
      match lines.get? k with
      | none => []
      | some ln => ln.items.filter (fun it =>
          let cx := (it.box.x1 + it.box.x2) / 2
          xL ≤ cx && cx ≤ xR))

/-- One alternative matches at the head with its trailing `\b`, returning
the unconsumed suffix; alternatives are tried in alternation order (they
are pairwise exclusive, diverging within their first three characters). -/
def firstAltRem (alts : List (List PTok)) (l : List Char) : Option (List Char) :=
  match alts with
  | [] => none
  | ts :: rest =>
    match ptoksMatch ts l with
    | some rem => if endOk rem then some rem else firstAltRem rest l
    | none => firstAltRem rest l

/-- Helper of `subAlts`: while `skip > 0` the characters of an already
matched region are dropped one by one (keeping the previous-character
context); at `skip = 0` a new leftmost match is attempted. -/
def subAltsAux (alts : List (List PTok)) (rep : List Char) :
    Option Char → Nat → List Char → List Char
  | _, _, [] => []
  | _prev, Nat.succ k, c :: cs => subAltsAux alts rep (some c) k cs
  | prev, 0, c :: cs =>
    match (if prevOk prev then firstAltRem alts (c :: cs) else none) with
    | some rem =>
      let L := max 1 (cs.length + 1 - rem.length)
      rep ++ subAltsAux alts rep (some c) (L - 1) cs
    | none => c :: subAltsAux alts rep (some c) 0 cs

/-- Python `re.sub(r"\b(alt|...)\b", rep, t)`: replace each non-overlapping
leftmost match by `rep` and resume after it.  Every alternative consumes at
least one character, so the `max 1` in the skip width never changes it. -/
def subAlts (alts : List (List PTok)) (rep : List Char)
    (prev : Option Char) (l : List Char) : List Char :=
  subAltsAux alts rep prev 0 l

/-- Helper of `subClassRuns`: `inRun` records whether the previous
character was in the class (so a run emits only one replacement). -/
def subClassRunsAux (p : Char → Bool) (rep : Char) : Bool → List Char → List Char
  | _, [] => []
  | inRun, c :: cs =>
    if p c then
      (if inRun then [] else [rep]) ++ subClassRunsAux p rep true cs
    else c :: subClassRunsAux p rep false cs

/-- Python `re.sub(r"(class)+", rep-char, t)`: each maximal run of class
characters becomes one `rep` character. -/
def subClassRuns (p : Char → Bool) (rep : Char) (l : List Char) : List Char :=
  subClassRunsAux p rep false l

/-- Truncate at the leftmost `\b(alts)\b` match; the generic engine behind
`cut_at_next_label` (with the stop alternatives) and the village cut. -/
def cutAtFirst (alts : List (List PTok)) : Option Char → List Char → List Char
  | _, [] => []
  | prev, c :: cs =>
    if prevOk prev && alts.any (fun ts => altHit ts (c :: cs)) then []
    else c :: cutAtFirst alts (some c) cs

/-- Lower-case ASCII letter after case folding: the class `[a-z]` under
`re.I`. -/
def azCI (c : Char) : Bool := 'a' ≤ c.toLower && c.toLower ≤ 'z'

/-- The blacklist of `sanitize_person_value`:
`\b(house|address|village|district|taluka|tehs?il|panchayat|gp|pattas?|leases?l?|grants?)\b`. -/
def personBlack : List (List PTok) :=
  [ [.lit "house".data],
    [.lit "address".data],
    [.lit "village".data],
    [.lit "district".data],
    [.lit "taluka".data],
    [.lit "teh".data, .opt 's', .lit "il".data],
    [.lit "panchayat".data],
    [.lit "gp".data],
    [.lit "patta".data, .opt 's'],
    [.lit "lease".data, .opt 's', .opt 'l'],
    [.lit "grant".data, .opt 's'] ]

/-- The character class `[0-9\[\]\(\)\/:,]` stripped by
`sanitize_person_value`. -/
def isPersonStrip (c : Char) : Bool :=
  c.isDigit || c = '[' || c = ']' || c = '(' || c = ')' || c = '/' || c = ':' || c = ','

/-- The source's `sanitize_person_value`: normalize, blank out blacklisted
structural words, blank out digit/punctuation runs, collapse whitespace,
keep the first three tokens. -/
def sanitizePersonValue (s : String) : String :=
  let t := (normalizeText s).data
  let t := subAlts personBlack [' '] none t
  let t := subClassRuns isPersonStrip ' ' t
  String.mk (joinSp ((pyWords t).take 3))

/-- Characters kept by `sanitize_address_value` (`[^a-z0-9 ,/]` is blanked). -/
def isAddrKeep (c : Char) : Bool :=
  ('a' ≤ c && c ≤ 'z') || c.isDigit || c = ' ' || c = ',' || c = '/'

/-- The source's `sanitize_address_value`: normalize, blank every character
outside `[a-z0-9 ,/]`, collapse whitespace, strip spaces and commas from
both ends. -/
def sanitizeAddressValue (s : String) : String :=
  let t := (normalizeText s).data.map (fun c => if isAddrKeep c then c else ' ')
  String.mk (pyStripSet (fun c => c = ' ' || c = ',') (joinSp (pyWords t)))

/-- The source's `dedupe_tokens`: drop a token equal to its immediate
predecessor. -/
def dedupeTokens (s : String) : String :=
  let toks := pySplit s
  let out := toks.foldl (fun out t => if out.getLast? = some t then out else out ++ [t]) []
  String.mk (joinSp (out.map String.data))

/-- The village cut `\b(gram\s*panchayat|gp)\b.*$` of
`sanitize_village_value` (everything from the label on is removed). -/
def villageAlts : List (List PTok) :=
  [ [.lit "gram".data, .star isPySpace, .lit "panchayat".data],
    [.lit "gp".data] ]

/-- The source's `sanitize_village_value`. -/
def sanitizeVillageValue (s : String) : Option String :=
  let t := pyStripWs (cutAtFirst villageAlts none (normalizeText s).data)
  let t := dedupeTokens (String.mk t)
  let parts := pySplit t
  if parts.isEmpty then none
  else some (String.mk (joinSp ((parts.map String.data).take 3)))

/-- Bounded group match `([a-z][a-z\s]{0,24})` (greedy) or
`([a-z][a-z\s]{0,40}?)` (lazy) followed by `\s+`, the given suffix tokens
and `\b`, starting at the head of `l`; returns the group's characters.
`ks` enumerates candidate tail lengths in the engine's preference order
(descending for greedy, ascending for lazy). -/
def grpSuffixAt (cls : Char → Bool) (ks : List Nat) (sufToks : List PTok)
    (l : List Char) : Option (List Char) :=
  match l with
  | [] => none
  | c :: cs =>
    if azCI c then
      ks.findSome? (fun k =>
        if (cs.take k).all cls && altHit (.plus isPySpace :: sufToks) (cs.drop k) then
          some (c :: cs.take k)
        else none)
    else none

/-- Leftmost search for `grpSuffixAt`, with the leading `\b`. -/
def searchGrpSuffix (cls : Char → Bool) (ks : List Nat) (sufToks : List PTok) :
    Option Char → List Char → Option (List Char)
  | _, [] => none
  | prev, c :: cs =>
    match (if prevOk prev then grpSuffixAt cls ks sufToks (c :: cs) else none) with
    | some g => some g
    | none => searchGrpSuffix cls ks sufToks (some c) cs

/-- Group-tail class `[a-z\s]` under `re.I`. -/
def azWs (c : Char) : Bool := azCI c || isPySpace c

/-- Descending tail lengths `24, …, 0` for the greedy `{0,24}`. -/
def greedy24 : List Nat := (List.range 25).reverse

/-- Ascending tail lengths `0, …, 40` for the lazy `{0,40}?`. -/
def lazy40 : List Nat := List.range 41

/-- The source's `sanitize_gp_value`: a short phrase before `gp` or
`gram panchayat`, else the first two tokens, always suffixed with `gp`. -/
def sanitizeGpValue (s : String) : Option String :=
  let t := (normalizeText s).data
  match searchGrpSuffix azWs greedy24 [.lit "gp".data] none t with
  | some g => some (dedupeTokens (String.mk (pyStripWs (pyStripWs g ++ " gp".data))))
  | none =>
    match searchGrpSuffix azWs greedy24
        [.lit "gram".data, .star isPySpace, .lit "panchayat".data] none t with
    | some g => some (dedupeTokens (String.mk (pyStripWs (pyStripWs g ++ " gp".data))))
    | none =>
      let base := joinSp ((pyWords t).take 2)
      if base.isEmpty then none
      else some (dedupeTokens (String.mk (pyStripWs (base ++ " gp".data))))

/-- The source's `sanitize_required_suffix` with its lazy bounded group;
`keepTokens` is 4 by default in the source; its calls pass 3. -/
def sanitizeRequiredSuffix (s : String) (sfx : String) (keepTokens : Nat) :
    Option String :=
  let t := normalizeText s
  match searchGrpSuffix azWs lazy40 [.lit sfx.data] none t.data with
  | some g =>
    let phrase := pyStripWs (pyStripWs g ++ ' ' :: sfx.data)
    some (String.mk (joinSp ((pyWords phrase).take keepTokens)))
  | none =>
    let parts := pySplit t
    if parts.length = 1 && parts.getD 0 "" = "sample" then some ("sample " ++ sfx)
    else if parts.isEmpty then none
    else some (String.mk (joinSp ((pyWords t.data).take keepTokens)))

/-- Delimiter of `parse_parent_names`
(`\s*/\s*|\s*\|\s*|\s{2,}|,| and `), matched at the head; returns the rest
after the delimiter. -/
def parentDelim (l : List Char) : Option (List Char) :=
  match l.dropWhile isPySpace with
  | '/' :: r => some (r.dropWhile isPySpace)
  | '|' :: r => some (r.dropWhile isPySpace)
  | _ =>
    if 2 ≤ (l.takeWhile isPySpace).length then some (l.dropWhile isPySpace)
    else
      match l with
      | ',' :: r => some r
      | _ => if " and ".data.isPrefixOf l then some (l.drop 5) else none

/-- Helper of `splitParentSegs`: while `skip > 0` the characters of an
already matched delimiter are dropped. -/
def splitParentAux : Nat → List Char → List Char → List (List Char)
  | _, [], acc => [acc.reverse]
  | Nat.succ k, _ :: cs, acc => splitParentAux k cs acc
  | 0, c :: cs, acc =>
    match parentDelim (c :: cs) with
    | some r =>
      let L := max 1 (cs.length + 1 - r.length)
      acc.reverse :: splitParentAux (L - 1) cs []
    | none => splitParentAux 0 cs (c :: acc)

/-- Python `re.split` with the parent-name delimiter; every delimiter
consumes at least one character, so `max 1` never changes the skip width. -/
def splitParentSegs (l : List Char) : List (List Char) :=
  splitParentAux 0 l []

/-- Substring containment, Python `needle in hay`. -/
def containsSub (needle : List Char) : List Char → Bool
  | [] => needle.isEmpty
  | c :: cs => needle.isPrefixOf (c :: cs) || containsSub needle cs

/-- Structural words that invalidate a parsed parent name
(`bad in father` substring test of the source). -/
def parentBad : List String :=
  ["address", "house", "village", "district", "taluka", "tehsil",
   "panchayat", "gp", "pattas", "lease", "grants"]

/-- Discard a candidate parent name containing a structural word. -/
def parentCheck (p : List Char) : Option String :=
  if parentBad.any (fun b => containsSub b.data p) then none
  else some (String.mk p)

/-- The source's `parse_parent_names`: split on the delimiter, strip spaces
and colons, drop empties, first segment is the father and second the
mother, each discarded if it contains a structural word. -/
def parseParentNames (val : String) : Option String × Option String :=
  let segs := splitParentSegs (normalizeText val).data
  let parts := (segs.map (pyStripSet (fun c => c = ' ' || c = ':'))).filter
    (fun p => !p.isEmpty)
  match parts with
  | f :: m :: _ => (parentCheck f, parentCheck m)
  | [f] => (parentCheck f, none)
  | [] => (none, none)

/-- A dependent-family-member record `{name, age?}` of
`parse_members_tolerant`. -/
structure Member : Type where
  name : String
  age : Option Nat
deriving DecidableEq, Repr

/-- Group-tail class `[a-z\s\.]` (under `re.I`) of the member patterns. -/
def clsNameDot (c : Char) : Bool := azCI c || isPySpace c || c = '.'

/-- Numeric value of a digit run. -/
def digitsToNat (l : List Char) : Nat :=
  l.foldl (fun n c => n * 10 + (c.toNat - '0'.toNat)) 0

/-- Match `([a-z][a-z\s\.]+?)\s*\(\s*(\d{1,3})\s*\)` at the head: a lazy
name of at least two class characters, then a parenthesized 1-3 digit age.
Lazy tail lengths are tried ascending. -/
def memberParenAt (l : List Char) : Option (List Char × Nat) :=
  match l with
  | [] => none
  | c :: cs =>
    if azCI c then
      (List.range cs.length).findSome? (fun j0 =>
        let j := j0 + 1
        if (cs.take j).all clsNameDot then
          let r1 := (cs.drop j).dropWhile isPySpace
          match r1 with
          | '(' :: r2 =>
            let r3 := r2.dropWhile isPySpace
            let dr := r3.takeWhile Char.isDigit
            if 1 ≤ dr.length && dr.length ≤ 3 then
              match (r3.drop dr.length).dropWhile isPySpace with
              | ')' :: _ => some (c :: cs.take j, digitsToNat dr)
              | _ => none
            else none
          | _ => none
        else none)
    else none

/-- Leftmost search for `memberParenAt` (the pattern has no leading `\b`). -/
def memberParenSearch : List Char → Option (List Char × Nat)
  | [] => none
  | c :: cs => (memberParenAt (c :: cs)).orElse (fun _u => memberParenSearch cs)

/-- Match `^([a-z][a-z\s\.]+?)\s+(\d{1,3})$` on the whole chunk: a trailing
1-3 digit run, preceded by whitespace, preceded by a name of at least two
class characters. -/
def memberTailAge (ch : List Char) : Option (List Char × Nat) :=
  let rev := ch.reverse
  let dr := rev.takeWhile Char.isDigit
  if 1 ≤ dr.length && dr.length ≤ 3 then
    let wsr := (rev.drop dr.length).takeWhile isPySpace
    if 1 ≤ wsr.length then
      let name := (rev.drop (dr.length + wsr.length)).reverse
      match name with
      | c :: tl =>
        if azCI c && !tl.isEmpty && tl.all clsNameDot then
          some (name, digitsToNat dr.reverse)
        else none
      | [] => none
    else none
  else none

/-- Helper of `removeEmptyParens` with the skip counter for an already
matched region. -/
def removeEmptyParensAux : Nat → List Char → List Char
  | _, [] => []
  | Nat.succ k, _ :: cs => removeEmptyParensAux k cs
  | 0, c :: cs =>
    if c = '(' then
      match cs.dropWhile isPySpace with
      | ')' :: r =>
        let L := max 1 (cs.length + 1 - r.length)
        removeEmptyParensAux (L - 1) cs
      | _ => c :: removeEmptyParensAux 0 cs
    else c :: removeEmptyParensAux 0 cs

/-- Remove every `\(\s*\)` occurrence (the bare-name fallback's
`re.sub(r"\(\s*\)", "", ch)`). -/
def removeEmptyParens (l : List Char) : List Char :=
  removeEmptyParensAux 0 l

/-- Split on a single character, Python `re.split(r",", t)`. -/
def splitChar (d : Char) : List Char → List (List Char)
  | [] => [[]]
  | c :: cs =>
    if c = d then [] :: splitChar d cs
    else
      match splitChar d cs with
      | s :: ss => (c :: s) :: ss
      | [] => [[c]]

/-- The source's `parse_members_tolerant`: semicolons to commas, split on
commas, and per chunk try `name (age)`, then `name age`, then a bare name
with empty parentheses removed. -/
def parseMembersTolerant (text : String) : List Member :=
  let t := (normalizeText text).data.map (fun c => if c = ';' then ',' else c)
  let chunks := ((splitChar ',' t).map pyStripWs).filter (fun c => !c.isEmpty)
  chunks.filterMap (fun ch =>
    match memberParenSearch ch with
    | some (g, age) => some ⟨String.mk (joinSp (pyWords g)), some age⟩
    | none =>
      match memberTailAge ch with
      | some (g, age) => some ⟨String.mk (joinSp (pyWords g)), some age⟩
      | none =>
        let nm := pyStripSet (fun c => c = ' ' || c = ':') (removeEmptyParens ch)
        if nm.isEmpty then none else some ⟨String.mk nm, none⟩)

/-- Character class `[:\s]` trailing the area keywords. -/
def colonWs (c : Char) : Bool := c = ':' || isPySpace c

/-- Keyword matcher `\bhabitation[:\s]*` at the head, returning the suffix
after the match end (`m.end()`). -/
def kwHabitationAt (prev : Option Char) (l : List Char) : Option (List Char) :=
  if prevOk prev then
    match litMatch "habitation".data l with
    | some r => some (r.dropWhile colonWs)
    | none => none
  else none

/-- Keyword matcher `\bself[-\s]*cultivation[:\s]*` at the head. -/
def kwSelfCultAt (prev : Option Char) (l : List Char) : Option (List Char) :=
  if prevOk prev then
    match ptoksMatch [.lit "self".data, .star wsDash, .lit "cultivation".data] l with
    | some r => some (r.dropWhile colonWs)
    | none => none
  else none

/-- Helper of `kwWindows` with the skip counter for an already matched
keyword region. -/
def kwWindowsAux (kw : Option Char → List Char → Option (List Char)) :
    Option Char → Nat → List Char → List (List Char)
  | _, _, [] => []
  | _prev, Nat.succ k, c :: cs => kwWindowsAux kw (some c) k cs
  | prev, 0, c :: cs =>
    match kw prev (c :: cs) with
    | some rem =>
      let L := max 1 (cs.length + 1 - rem.length)
      (c :: cs).drop L :: kwWindowsAux kw (some c) (L - 1) cs
    | none => kwWindowsAux kw (some c) 0 cs

/-- Python `re.finditer`: the suffixes after each non-overlapping keyword
match, left to right.  Keyword matches consume at least one character, so
the `max 1` in the skip width never changes it. -/
def kwWindows (kw : Option Char → List Char → Option (List Char))
    (prev : Option Char) (l : List Char) : List (List Char) :=
  kwWindowsAux kw prev 0 l

/-- Match the number pattern
`([0-9]+(?:[.,]\s*[0-9]+|\s+[0-9]{2})?)\s*h[aɑ]\b` at the head, returning
the content of group 1.  The optional branch is tried first (the two
alternatives are distinguished by their first character), falling back to
the empty option exactly as the backtracking engine does. -/
def matchNumAt (l : List Char) : Option (List Char) :=
  let d1 := l.takeWhile Char.isDigit
  if d1.isEmpty then none
  else
    let r1 := l.drop d1.length
    let numTail := fun (r : List Char) =>
      match r.dropWhile isPySpace with
      | h :: a :: r2 => h.toLower = 'h' && (a.toLower = 'a' || a = 'ɑ') && endOk r2
      | _ => false
    let grpOpt : Option (List Char × List Char) :=
      match r1 with
      | c :: rest =>
        if c = '.' || c = ',' then
          let ws := rest.takeWhile isPySpace
          let r2 := rest.drop ws.length
          let d2 := r2.takeWhile Char.isDigit
          if d2.isEmpty then none
          else some (c :: (ws ++ d2), r2.drop d2.length)
        else if isPySpace c then
          let ws := r1.takeWhile isPySpace
          match r1.drop ws.length with
          | a :: b :: r3 =>
            if a.isDigit && b.isDigit then some (ws ++ [a, b], r3) else none
          | _ => none
        else none
      | [] => none
    match grpOpt with
    | some (ext, r2) =>
      if numTail r2 then some (d1 ++ ext)
      else if numTail r1 then some d1
      else none
    | none => if numTail r1 then some d1 else none

/-- Leftmost search for the number pattern inside a window. -/
def numSearchGrp : List Char → Option (List Char)
  | [] => none
  | c :: cs => (matchNumAt (c :: cs)).orElse (fun _u => numSearchGrp cs)

/-- Helper of `subDotWs` with the skip counter for an already matched
region. -/
def subDotWsAux : Nat → List Char → List Char
  | _, [] => []
  | Nat.succ k, _ :: cs => subDotWsAux k cs
  | 0, c :: cs =>
    let ws := (c :: cs).takeWhile isPySpace
    match (c :: cs).drop ws.length with
    | '.' :: r2 =>
      let t := r2.dropWhile isPySpace
      let L := max 1 (cs.length + 1 - t.length)
      '.' :: subDotWsAux (L - 1) cs
    | _ => c :: subDotWsAux 0 cs

/-- The source's `token = re.sub(r"\s*\.\s*", ".", token)` decimal fix-up. -/
def subDotWs (l : List Char) : List Char :=
  subDotWsAux 0 l

/-- The source's `token = re.sub(r"(\d)\s+(\d{2})$", r"\1.\2", token)`
space-separated decimal fix-up. -/
def fixTailDecimal (l : List Char) : List Char :=
  match l.reverse with
  | b :: a :: rest =>
    if b.isDigit && a.isDigit then
      let ws := rest.takeWhile isPySpace
      match rest.drop ws.length with
      | d :: _ =>
        if 1 ≤ ws.length && d.isDigit then
          (rest.drop ws.length).reverse ++ '.' :: [a, b]
        else l
      | [] => l
    else l
  | _ => l

/-- Python `float(token)` on the token shapes producible here: an optional
single decimal point between digit runs; anything else (such as an interior
space) fails, as `float()` raises there. -/
def parsePyFloat (l : List Char) : Option Rat :=
  let d1 := l.takeWhile Char.isDigit
  match l.drop d1.length with
  | [] => if d1.isEmpty then none else some ((digitsToNat d1 : Int) : Rat)
  | '.' :: r2 =>
    let d2 := r2.takeWhile Char.isDigit
    if r2.drop d2.length = [] && !(d1.isEmpty && d2.isEmpty) then
      some ((digitsToNat d1 : Rat) + (digitsToNat d2 : Rat) / ((10 : Rat) ^ d2.length))
    else none
  | _ => none

/-- One keyword window: search the 40-character window for the number
pattern, fix up the token and parse it; `none` moves on to the next
window. -/
def numFromWindows (wins : List (List Char)) (maxChars : Nat) : Option Rat :=
  match wins with
  | [] => none
  | w :: rest =>
    match numSearchGrp (w.take maxChars) with
    | some grp =>
      let tok := fixTailDecimal (subDotWs
        (grp.map (fun c => if c = ',' then '.' else c)))
      match parsePyFloat tok with
      | some q => some q
      | none => numFromWindows rest maxChars
    | none => numFromWindows rest maxChars

/-- Raw joined text of a line's items (`" ".join(texts)`), fed to
`normalize` by the area parser. -/
def lineRawText (ln : Line) : List Char :=
  joinSp (ln.items.map (fun it => it.text.data))

/-- First `some` over the single lines. -/
def scanLines (f : Line → Option Rat) : List Line → Option Rat
  | [] => none
  | ln :: rest =>
    match f ln with
    | some q => some q
    | none => scanLines f rest

/-- Adjacent line pairs for the two-line wraparound scan. -/
def adjPairs : List Line → List (Line × Line)
  | a :: b :: rest => (a, b) :: adjPairs (b :: rest)
  | _ => []

/-- First `some` over adjacent pairs. -/
def scanPairs (f : Line × Line → Option Rat) : List (Line × Line) → Option Rat
  | [] => none
  | p :: rest =>
    match f p with
    | some q => some q
    | none => scanPairs f rest

/-- The source's `number_after_keyword_with_ha`: scan each line, then each
adjacent pair of lines, for the keyword followed within a 40-character
window by a number-with-unit; return the first parsed value. -/
def numberAfterKeywordWithHa (lines : List Line)
    (kw : Option Char → List Char → Option (List Char))
    (maxChars : Nat) : Option Rat :=
  let fromRaw := fun (raw : List Char) =>
    numFromWindows (kwWindows kw none (normalizeText (String.mk raw)).data) maxChars
  match scanLines (fun ln => fromRaw (lineRawText ln)) lines with
  | some q => some q
  | none =>
    scanPairs
      (fun p => fromRaw (joinSp ((p.1.items ++ p.2.items).map (fun it => it.text.data))))
      (adjPairs lines)

/-- The candidate list built by `yes_no_from_near_text`: per item of the
anchor's nearest line and the following line, `"yes"` if `\byes\b` matches
its normalized text and `"no"` if `\bno\b` does. -/
def ynCandidates (items : List Item) (aRect : Rect) (pageH : Int) : List String :=
  let lines := groupByLines items pageH
  let am := pyHalf (aRect.y1 + aRect.y2)
  let harvest := fun (ln : Line) =>
    ln.items.flatMap (fun it =>
      let t := (normalizeText it.text).data
      (if reSearch (wordPat "yes") t then ["yes"] else []) ++
      (if reSearch (wordPat "no") t then ["no"] else []))
  match nearestLineIdx lines am with
  | none => []
  | some i =>
    (match lines.get? i with
      | some ln => harvest ln
      | none => []) ++
    (match lines.get? (i + 1) with
      | some ln => harvest ln
      | none => [])

/-- The source's `yes_no_from_near_text` (its `page_w` argument is unused
in the source as well). -/
def yesNoFromNearText (items : List Item) (aRect : Rect)
    (_pageW pageH : Int) : Option Bool :=
  let c := ynCandidates items aRect pageH
  if c.isEmpty then none
  else if c.contains "yes" && !(c.contains "no") then some true
  else if c.contains "no" && !(c.contains "yes") then some false
  else none

/-- A detected checkbox `{bbox, filled, fill_ratio, near_label}`; the fill
ratio is consumed only inside the pixel detector (out of the embedded
core) and is omitted. -/
structure Checkbox : Type where
  box : Rect
  filled : Bool
  nearLabel : Option String
deriving DecidableEq, Repr

/-- The per-page detection record `m2_page`; stamps are never consumed by
the extraction stage and are omitted, signatures are consumed only through
their presence. -/
structure M2Page : Type where
  checkboxes : List Checkbox
  signatures : List Rect
deriving DecidableEq, Repr

/-- The label-text fallback loop of `bool_from_checkboxes_near`. -/
def labelScan : List Checkbox → Option Bool
  | [] => none
  | b :: rest =>
    let lab := b.nearLabel.getD ""
    if containsSub "yes".data lab.data && b.filled then some true
    else if containsSub "no".data lab.data && b.filled then some false
    else labelScan rest

/-- The in-band filter of `bool_from_checkboxes_near`: checkboxes whose
vertical center is within `max(12, int((by2-by1)*1.5))` of the anchor's. -/
def closeBoxes (r : Rect) (boxes : List Checkbox) : List Checkbox :=
  let cy := pyHalf (r.y1 + r.y2)
  boxes.filter (fun b =>
    |pyHalf (b.box.y1 + b.box.y2) - cy| ≤ max 12 (pyHalf ((r.y2 - r.y1) * 3)))

/-- The source's `bool_from_checkboxes_near`.  A `m2_page` dictionary is
always non-empty in the pipeline, so its falsiness test is not modelled.
The source's `close.sort(key=...)` mutates `close` in place inside the
`len(close) >= 2` branch, so the label-text loop below it also iterates the
x-sorted list; with at most one element the sort is the identity, so
sorting once up front is the same. -/
def boolFromCheckboxesNear (aRect : Option Rect) (m2 : M2Page) : Option Bool :=
  match aRect with
  | none => none
  | some r =>
    let close := sortByKey (fun b => b.box.x1) (closeBoxes r m2.checkboxes)
    let fromPair : Option Bool :=
      if 2 ≤ close.length then
        match close with
        | left :: right :: _ =>
          if left.filled != right.filled then some left.filled else none
        | _ => none
      else none
    match fromPair with
    | some v => some v
    | none => labelScan close

/-- `ANCHORS["claimant_name"]`:
`name\(s\)\s*of\s*holder\(s\)` and `sh\.\s*nek\s*ram`. -/
def anchorClaimant : List Pat :=
  [ ⟨false, [.lit "name(s)".data, .star isPySpace, .lit "of".data,
      .star isPySpace, .lit "holder(s)".data], false⟩,
    ⟨false, [.lit "sh.".data, .star isPySpace, .lit "nek".data,
      .star isPySpace, .lit "ram".data], false⟩ ]

/-- `ANCHORS["spouse_name"]`: `name\s*of\s*spouse`. -/
def anchorSpouse : List Pat :=
  [ ⟨false, [.lit "name".data, .star isPySpace, .lit "of".data,
      .star isPySpace, .lit "spouse".data], false⟩ ]

/-- `ANCHORS["father_mother"]`: `name\s*of\s*father\s*/\s*mother`. -/
def anchorFatherMother : List Pat :=
  [ ⟨false, [.lit "name".data, .star isPySpace, .lit "of".data,
      .star isPySpace, .lit "father".data, .star isPySpace, .lit "/".data,
      .star isPySpace, .lit "mother".data], false⟩ ]

/-- `ANCHORS["address"]`: `\b4\.\s*address\b`. -/
def anchorAddress : List Pat :=
  [ ⟨true, [.lit "4.".data, .star isPySpace, .lit "address".data], true⟩ ]

/-- `ANCHORS["village"]`: `village\s*/\s*gram\s*sabha`. -/
def anchorVillage : List Pat :=
  [ ⟨false, [.lit "village".data, .star isPySpace, .lit "/".data,
      .star isPySpace, .lit "gram".data, .star isPySpace, .lit "sabha".data], false⟩ ]

/-- `ANCHORS["gram_panchayat"]`: `gram\s*panchayat\b`. -/
def anchorGp : List Pat :=
  [ ⟨false, [.lit "gram".data, .star isPySpace, .lit "panchayat".data], true⟩ ]

/-- `ANCHORS["tehsil_taluka"]`: `tehsil\s*/\s*taluka`. -/
def anchorTehsil : List Pat :=
  [ ⟨false, [.lit "tehsil".data, .star isPySpace, .lit "/".data,
      .star isPySpace, .lit "taluka".data], false⟩ ]

/-- `ANCHORS["district"]`: `\b8\.\s*district\b`. -/
def anchorDistrict : List Pat :=
  [ ⟨true, [.lit "8.".data, .star isPySpace, .lit "district".data], true⟩ ]

/-- `ANCHORS["scheduled_tribe"]`: `scheduled\s*tribe`. -/
def anchorScheduledTribe : List Pat :=
  [ ⟨false, [.lit "scheduled".data, .star isPySpace, .lit "tribe".data], false⟩ ]

/-- `ANCHORS["otfd"]`: `other\s*traditional\s*forest\s*dweller`. -/
def anchorOtfd : List Pat :=
  [ ⟨false, [.lit "other".data, .star isPySpace, .lit "traditional".data,
      .star isPySpace, .lit "forest".data, .star isPySpace, .lit "dweller".data], false⟩ ]

/-- `ANCHORS["other_members"]`: `\b10\.\s*name of other members\b` and
`\bname of other members\b`. -/
def anchorOtherMembers : List Pat :=
  [ ⟨true, [.lit "10.".data, .star isPySpace, .lit "name of other members".data], true⟩,
    ⟨true, [.lit "name of other members".data], true⟩ ]

/-- The source's `find_anchor_item`: first item whose normalized text
matches any of the field's patterns. -/
def findAnchorItem (items : List Item) (pats : List Pat) : Option Item :=
  items.find? (fun it => pats.any (fun p => reSearch p (normalizeText it.text).data))

/-- Inline-colon fallback `re.search(r":\s*(.*)$", raw)`: everything after
the first colon and subsequent whitespace (item texts contain no
newlines). -/
def inlineColon : List Char → Option (List Char)
  | [] => none
  | ':' :: r => some (r.dropWhile isPySpace)
  | _ :: r => inlineColon r

/-- The `get_after` helper of `extract_page_fields`: locate the anchor,
harvest right-bounded tokens, stop-cut their joined text, and fall back to
the inline-colon text. -/
def getAfter (items : List Item) (pageW pageH : Int) (pats : List Pat) :
    String × Option Rect :=
  match findAnchorItem items pats with
  | none => ("", none)
  | some it =>
    let vals := collectRightBounded items it.box pageW pageH 6 true
    let text := if vals.isEmpty then "" else cutAtNextLabel (joinItemsText vals)
    let text := if text.isEmpty then
        match inlineColon it.text.data with
        | some g => String.mk g
        | none => text
      else text
    (text, some it.box)

/-- The fixed field slots of one page's extraction (`out` of
`extract_page_fields`). -/
structure PageFields : Type where
  claimant_name : Option String
  spouse_name : Option String
  father_name : Option String
  mother_name : Option String
  address : Option String
  village : Option String
  gram_panchayat : Option String
  tehsil_taluka : Option String
  district : Option String
  scheduled_tribe : Option Bool
  otfd : Option Bool
  other_members : List Member
  habitation_area_ha : Option Rat
  self_cultivation_area_ha : Option Rat
  signature_present : Option Bool
deriving DecidableEq, Repr

/-- Python `s or None` on a string. -/
def strOrNone (s : String) : Option String := if s.isEmpty then none else some s

/-- The claimant/spouse post-fix at the end of `extract_page_fields`:
when both resolve to the same (normalized) truthy value, re-split it by
token count. -/
def fixClaimantSpouse (c s : Option String) : Option String × Option String :=
  match c, s with
  | some cs, some ss =>
    if !cs.isEmpty && !ss.isEmpty && normalizeText cs = normalizeText ss then
      let toks := (pySplit cs).map String.data
      if toks.length = 3 then
        (some (String.mk (joinSp (toks.take 2))), some (String.mk (toks.getD 2 [])))
      else if toks.length = 4 then
        (some (String.mk (joinSp (toks.take 2))), some (String.mk (joinSp (toks.drop 2))))
      else (some cs, some ss)
    else (some cs, some ss)
  | _, _ => (c, s)

/-- Join words with newlines (`"\n".join(texts)`). -/
def joinNl : List (List Char) → List Char
  | [] => []
  | [w] => w
  | w :: ws => w ++ '\n' :: joinNl ws

/-- Match `\[\s*[x✓✔]\s*\]` at the head. -/
def checkGlyphAt (l : List Char) : Bool :=
  match l with
  | '[' :: r =>
    match r.dropWhile isPySpace with
    | c :: r2 =>
      (c = 'x' || c = '✓' || c = '✔') &&
      (match r2.dropWhile isPySpace with
        | ']' :: _ => true
        | _ => false)
    | [] => false
  | _ => false

/-- Search for `\[\s*[x✓✔]\s*\]` anywhere. -/
def hasCheckGlyph : List Char → Bool
  | [] => false
  | c :: cs => checkGlyphAt (c :: cs) || hasCheckGlyph cs

/-- Match `\bsignature[^:\n]*:\s*\S` at the head: the colon is necessarily
the first colon after `signature` with no newline between, then some
non-whitespace must follow. -/
def signColonAt (prev : Option Char) (l : List Char) : Bool :=
  if prevOk prev then
    match litMatch "signature".data l with
    | some r =>
      let pre := r.takeWhile (fun c => c ≠ ':' && c ≠ '\n')
      match r.drop pre.length with
      | ':' :: r2 => !(r2.dropWhile isPySpace).isEmpty
      | _ => false
    | none => false
  else false

/-- Search for `\bsignature[^:\n]*:\s*\S` anywhere. -/
def hasSignColon : Option Char → List Char → Bool
  | _, [] => false
  | prev, c :: cs => signColonAt prev (c :: cs) || hasSignColon (some c) cs

/-- The per-page exclusivity rule of `extract_page_fields` (lines 768-770):
if both booleans resolved true, `otfd` is forced false. -/
def exclusivityPair (st ot : Option Bool) : Option Bool × Option Bool :=
  if st = some true && ot = some true then (st, some false) else (st, ot)

/-- The page metadata dictionary (`page_number` is never read by the
extraction). -/
structure PageMeta : Type where
  width : Int
  height : Int
deriving DecidableEq, Repr

/-- The source's `extract_page_fields` over one page's items and detected
shapes. -/
def extractPageFields (meta : PageMeta) (items : List Item) (m2 : M2Page) :
    PageFields :=
  let h := if meta.height = 0 then 3500 else meta.height
  let w := if meta.width = 0 then 2500 else meta.width
  let claimRaw := (getAfter items w h anchorClaimant).1
  let spouseRaw := (getAfter items w h anchorSpouse).1
  let addrRaw := (getAfter items w h anchorAddress).1
  let villageRaw := (getAfter items w h anchorVillage).1
  let gpRaw := (getAfter items w h anchorGp).1
  let tehsilRaw := (getAfter items w h anchorTehsil).1
  let districtRaw := (getAfter items w h anchorDistrict).1
  let fm := getAfter items w h anchorFatherMother
  let fmRaw :=
    if fm.1.isEmpty then
      match fm.2 with
      | some r => joinItemsText (collectBelowSameColumn items r w h 22 2)
      | none => fm.1
    else fm.1
  let parents :=
    if fmRaw.isEmpty then (none, none)
    else
      let fp := parseParentNames fmRaw
      (strOrNone (sanitizePersonValue (fp.1.getD "")),
       strOrNone (sanitizePersonValue (fp.2.getD "")))
  let omRaw := (getAfter items w h anchorOtherMembers).1
  let otherMembers := if omRaw.isEmpty then [] else parseMembersTolerant omRaw
  let lines := groupByLines items h
  let habit := numberAfterKeywordWithHa lines kwHabitationAt 40
  let selfc := numberAfterKeywordWithHa lines kwSelfCultAt 40
  let stRect := (getAfter items w h anchorScheduledTribe).2
  let otRect := (getAfter items w h anchorOtfd).2
  let stBox0 := boolFromCheckboxesNear stRect m2
  let otBox0 := boolFromCheckboxesNear otRect m2
  let stBox :=
    match stBox0, stRect with
    | none, some r => yesNoFromNearText items r w h
    | _, _ => stBox0
  let otBox :=
    match otBox0, otRect with
    | none, some r => yesNoFromNearText items r w h
    | _, _ => otBox0
  let stOt := exclusivityPair stBox otBox
  let sig :=
    if !m2.signatures.isEmpty then some true
    else
      let pageText := (normalizeText
        (String.mk (joinNl (items.map (fun it => it.text.data))))).data
      if hasCheckGlyph pageText || hasSignColon none pageText then some true
      else none
  let csFixed := fixClaimantSpouse (strOrNone (sanitizePersonValue claimRaw))
    (strOrNone (sanitizePersonValue spouseRaw))
  { claimant_name := csFixed.1
    spouse_name := csFixed.2
    father_name := parents.1
    mother_name := parents.2
    address := strOrNone (sanitizeAddressValue addrRaw)
    village := sanitizeVillageValue villageRaw
    gram_panchayat := sanitizeGpValue gpRaw
    tehsil_taluka := sanitizeRequiredSuffix tehsilRaw "taluka" 3
    district := sanitizeRequiredSuffix districtRaw "district" 3
    scheduled_tribe := stOt.1
    otfd := stOt.2
    other_members := otherMembers
    habitation_area_ha := habit
    self_cultivation_area_ha := selfc
    signature_present := sig }

/-- The merge's `pick(cur, new)` on a string field: `cur` is kept unless it
is `None` or the empty string (`cur not in [None, "", []]`). -/
def pickStr : Option String → Option String → Option String
  | none, new => new
  | some "", new => new
  | cur, _ => cur

/-- The merge's `pick(cur, new)` on a boolean field: a boolean compares
unequal to `None`, `""` and `[]` in Python, so only `None` is replaced. -/
def pickBool : Option Bool → Option Bool → Option Bool
  | none, new => new
  | cur, _ => cur

/-- The merge's `pick(cur, new)` on a float field: only `None` is
replaced. -/
def pickRat : Option Rat → Option Rat → Option Rat
  | none, new => new
  | cur, _ => cur

/-- One member folded into the union: append unless its `(name, age)` key
is already present. -/
def addMemberStep (a : List Member) (mm : Member) : List Member :=
  if a.any (fun m => m.name = mm.name && m.age = mm.age) then a else a ++ [mm]

/-- The `other_members` union step: append the members whose `(name, age)`
key is not already present (the source's `existing` set is the set of keys
of the accumulator, which membership in the accumulator models exactly). -/
def addMembers (acc : List Member) (new : List Member) : List Member :=
  new.foldl addMemberStep acc

/-- The all-default `merged` dictionary of `process_document`. -/
def emptyFields : PageFields :=
  ⟨none, none, none, none, none, none, none, none, none, none, none, [],
   none, none, none⟩

/-- One page folded into the merge (`merged[k] = pick(merged[k], f.get(k))`
per field, union for `other_members`). -/
def mergeStep (m : PageFields) (f : PageFields) : PageFields :=
  { claimant_name := pickStr m.claimant_name f.claimant_name
    spouse_name := pickStr m.spouse_name f.spouse_name
    father_name := pickStr m.father_name f.father_name
    mother_name := pickStr m.mother_name f.mother_name
    address := pickStr m.address f.address
    village := pickStr m.village f.village
    gram_panchayat := pickStr m.gram_panchayat f.gram_panchayat
    tehsil_taluka := pickStr m.tehsil_taluka f.tehsil_taluka
    district := pickStr m.district f.district
    scheduled_tribe := pickBool m.scheduled_tribe f.scheduled_tribe
    otfd := pickBool m.otfd f.otfd
    other_members := addMembers m.other_members f.other_members
    habitation_area_ha := pickRat m.habitation_area_ha f.habitation_area_ha
    self_cultivation_area_ha :=
      pickRat m.self_cultivation_area_ha f.self_cultivation_area_ha
    signature_present := pickBool m.signature_present f.signature_present }

/-- The cross-page merge loop of `process_document` (lines 839-859), before
the exclusivity fix-up. -/
def mergePages (pages : List PageFields) : PageFields :=
  pages.foldl mergeStep emptyFields

/-- The post-merge exclusivity fix-up of `process_document`
(lines 861-863). -/
def applyExclusivity (m : PageFields) : PageFields :=
  if m.scheduled_tribe = some true && m.otfd = some true then
    { m with otfd := some false }
  else m

/-- The document-level `extracted` record of `process_document`: the merge
of the per-page fields followed by the exclusivity fix-up. -/
def documentExtracted (pages : List PageFields) : PageFields :=
  applyExclusivity (mergePages pages)

/-- `process_document` restricted to its extraction core: per-page field
extraction followed by the merge (page rendering, OCR and detection are
external collaborators producing the inputs). -/
def processDocumentExtracted
    (pagesIn : List (PageMeta × List Item × M2Page)) : PageFields :=
  documentExtracted (pagesIn.map (fun p => extractPageFields p.1 p.2.1 p.2.2))

/-! ## Lemmas about the stable sort and the median -/

theorem insByKey_perm {α : Type} (k : α → Int) (a : α) (l : List α) :
    List.Perm (insByKey k a l) (a :: l) := by
  induction l with
  | nil => simp [insByKey]
  | cons b t ih =>
    simp only [insByKey]
    split
    · exact ((ih.cons b).trans (List.Perm.swap a b t))
    · exact List.Perm.refl _

theorem sortByKey_perm {α : Type} (k : α → Int) (l : List α) :
    List.Perm (sortByKey k l) l := by
  induction l with
  | nil => simp [sortByKey]
  | cons a t ih =>
    simp only [sortByKey, List.foldr_cons]
    exact (insByKey_perm k a _).trans (ih.cons a)

theorem insByKey_sorted {α : Type} (k : α → Int) (a : α) (l : List α)
    (h : List.Pairwise (fun x y => k x ≤ k y) l) :
    List.Pairwise (fun x y => k x ≤ k y) (insByKey k a l) := by
  induction l with
  | nil => simp [insByKey]
  | cons b t ih =>
    simp only [insByKey]
    split
    · rename_i hlt
      rcases h with _ | ⟨hb, ht⟩
      refine List.Pairwise.cons ?_ (ih ht)
      intro x hx
      rcases List.mem_cons.1 ((insByKey_perm k a t).mem_iff.1 hx) with rfl | hxt
      · omega
      · exact hb x hxt
    · rename_i hge
      refine List.Pairwise.cons ?_ h
      intro x hx
      rcases List.mem_cons.1 hx with rfl | hxt
      · omega
      · rcases h with _ | ⟨hb, _⟩
        have := hb x hxt
        omega

theorem sortByKey_sorted {α : Type} (k : α → Int) (l : List α) :
    List.Pairwise (fun x y => k x ≤ k y) (sortByKey k l) := by
  induction l with
  | nil => simp [sortByKey]
  | cons a t ih =>
    simp only [sortByKey, List.foldr_cons]
    exact insByKey_sorted k a _ ih

/-- `pyHalf` of a sum of two ordered values lies between them. -/
theorem pyHalf_between {a b : Int} (h : a ≤ b) : a ≤ pyHalf (a + b) ∧ pyHalf (a + b) ≤ b := by
  unfold pyHalf
  split <;> omega

/-- `medianInt` of a nonempty list lies between any lower and upper bound
of its members. -/
theorem medianInt_between (l : List Int) (hne : l ≠ []) (lo hi : Int)
    (hlo : ∀ v ∈ l, lo ≤ v) (hhi : ∀ v ∈ l, v ≤ hi) :
    lo ≤ medianInt l ∧ medianInt l ≤ hi := by
  simp only [medianInt]
  have hperm := sortByKey_perm id l
  have hlen : (sortByKey id l).length = l.length := hperm.length_eq
  have hmem : ∀ i : Nat, i < (sortByKey id l).length →
      lo ≤ (sortByKey id l).getD i 0 ∧ (sortByKey id l).getD i 0 ≤ hi := by
    intro i hi2
    have hmemi : (sortByKey id l).getD i 0 ∈ sortByKey id l := by
      rw [List.getD_eq_getElem?_getD, List.getElem?_eq_getElem hi2]
      exact List.getElem_mem hi2
    have hin := hperm.mem_iff.1 hmemi
    exact ⟨hlo _ hin, hhi _ hin⟩
  have hlpos : 0 < l.length := List.length_pos.2 hne
  split
  · rename_i hodd
    have : (sortByKey id l).length / 2 < (sortByKey id l).length := by omega
    exact hmem _ this
  · rename_i heven
    have h1 : (sortByKey id l).length / 2 - 1 < (sortByKey id l).length := by omega
    have h2 : (sortByKey id l).length / 2 < (sortByKey id l).length := by omega
    have b1 := hmem _ h1
    have b2 := hmem _ h2
    unfold pyHalf
    constructor
    · split <;> omega
    · split <;> omega

/-! ## C1: mutual exclusivity of scheduled_tribe and otfd -/

theorem exclusivityPair_not_both :
    ∀ st ot : Option Bool,
      (((exclusivityPair st ot).1 == some true) &&
        ((exclusivityPair st ot).2 == some true)) = false := by
  decide

theorem applyExclusivity_not_both (m : PageFields) :
    (((applyExclusivity m).scheduled_tribe == some true) &&
      ((applyExclusivity m).otfd == some true)) = false := by
  unfold applyExclusivity
  split
  · simp
  · rename_i h
    by_cases h2 : m.otfd = some true
    · by_cases h1 : m.scheduled_tribe = some true
      · exact absurd (by simp [h1, h2]) h
      · have hb : (m.scheduled_tribe == some true) = false := by
          rw [beq_eq_false_iff_ne]
          exact h1
        rw [hb, Bool.false_and]
    · have hb : (m.otfd == some true) = false := by
        rw [beq_eq_false_iff_ne]
        exact h2
      rw [hb, Bool.and_false]

/-- C1: every resolved PageFields (output of `extract_page_fields`) and
every merged DocumentRecord (output of `process_document`'s merge) never
has `scheduled_tribe` and `otfd` both true: the mutual-exclusivity fix-up
is applied per page and again after the cross-page merge. -/
theorem scheduled_tribe_otfd_exclusive :
    (∀ (meta : PageMeta) (items : List Item) (m2 : M2Page),
      (((extractPageFields meta items m2).scheduled_tribe == some true) &&
        ((extractPageFields meta items m2).otfd == some true)) = false) ∧
    (∀ pages : List PageFields,
      (((documentExtracted pages).scheduled_tribe == some true) &&
        ((documentExtracted pages).otfd == some true)) = false) := by
  constructor
  · intro meta items m2
    exact exclusivityPair_not_both _ _
  · intro pages
    exact applyExclusivity_not_both _

/-! ## C2: checkbox-pair boolean resolution -/

/-- C2 (counterexample): with exactly two checkboxes in the anchor's band
and both filled, the claim requires a null result, but the source falls
through to the near-label fallback and returns true for a filled box
labelled "yes". -/
theorem checkbox_pair_both_filled_not_null :
    boolFromCheckboxesNear (some ⟨0, 0, 100, 10⟩)
      ⟨[⟨⟨10, 0, 20, 10⟩, true, some "yes"⟩,
        ⟨⟨50, 0, 60, 10⟩, true, some "no"⟩], []⟩ = some true := by
  decide

/-- C2 (amended): when the band around the anchor's line holds exactly the
two checkboxes `a` and `b`, named in left-to-right x order but detected in
any order, exactly one filled decides the value by the leftmost box; when
both are filled or both empty the result is the near-label fallback, which
scans the boxes left to right and is null when both are empty. -/
theorem checkbox_pair_resolution (r : Rect) (m2 : M2Page) (a b : Checkbox)
    (hpair : sortByKey (fun cb => cb.box.x1) (closeBoxes r m2.checkboxes) = [a, b]) :
    (a.filled ≠ b.filled → boolFromCheckboxesNear (some r) m2 = some a.filled) ∧
    (a.filled = b.filled → boolFromCheckboxesNear (some r) m2 = labelScan [a, b]) ∧
    (a.filled = false → b.filled = false →
      boolFromCheckboxesNear (some r) m2 = none) := by
  have hlen : (closeBoxes r m2.checkboxes).length = 2 := by
    have hp := sortByKey_perm (fun cb : Checkbox => cb.box.x1) (closeBoxes r m2.checkboxes)
    rw [hpair] at hp
    simpa using hp.length_eq.symm
  have hmain : boolFromCheckboxesNear (some r) m2 =
      (if a.filled != b.filled then some a.filled else labelScan [a, b]) := by
    simp only [boolFromCheckboxesNear, hpair, hlen, List.length_cons,
      List.length_nil]
    norm_num
    by_cases hf : a.filled = b.filled
    · simp [hf]
    · simp [hf]
  refine ⟨?_, ?_, ?_⟩
  · intro hne
    rw [hmain, if_pos]
    rwa [bne_iff_ne]
  · intro heq
    rw [hmain, if_neg]
    rw [bne_iff_ne]
    exact fun hc => hc heq
  · intro ha hb
    rw [hmain, if_neg]
    · simp [labelScan, ha, hb]
    · rw [bne_iff_ne]
      intro hc
      exact hc (ha.trans hb.symm)

/-- C2 (witness for the amended theorem): a concrete band whose two boxes
are detected right box first; the filled left box still resolves to true. -/
theorem checkbox_pair_resolution_witness :
    boolFromCheckboxesNear (some ⟨0, 0, 100, 10⟩)
      ⟨[⟨⟨50, 0, 60, 10⟩, false, none⟩, ⟨⟨10, 0, 20, 10⟩, true, none⟩], []⟩ = some true :=
  (checkbox_pair_resolution ⟨0, 0, 100, 10⟩
    ⟨[⟨⟨50, 0, 60, 10⟩, false, none⟩, ⟨⟨10, 0, 20, 10⟩, true, none⟩], []⟩
    ⟨⟨10, 0, 20, 10⟩, true, none⟩ ⟨⟨50, 0, 60, 10⟩, false, none⟩
    (by decide)).1 (by decide)

/-! ## C3, C4: cross-page merge -/

/-- A string field value that survives `pick` (not `None` and not `""`). -/
def isGoodStr : Option String → Bool
  | none => false
  | some s => !s.isEmpty

/-- A boolean field value that survives `pick` (any non-`None` boolean). -/
def isGoodBool : Option Bool → Bool
  | none => false
  | some _ => true

/-- A float field value that survives `pick` (any non-`None` float). -/
def isGoodRat : Option Rat → Bool
  | none => false
  | some _ => true

theorem pickStr_keep (a x : Option String) (h : isGoodStr a = true) :
    pickStr a x = a := by
  cases a with
  | none => simp [isGoodStr] at h
  | some s =>
    simp only [isGoodStr, Bool.not_eq_false'] at h
    unfold pickStr
    split
    · rename_i heq
      simp at heq
    · rename_i heq
      injection heq with h2
      subst h2
      exact absurd h (by decide)
    · rfl

theorem pickStr_drop (a x : Option String) (h : isGoodStr a = false) :
    pickStr a x = x := by
  cases a with
  | none => rfl
  | some s =>
    simp only [isGoodStr, Bool.not_eq_false'] at h
    rw [String.isEmpty_iff] at h
    subst h
    rfl

theorem pickBool_keep (a x : Option Bool) (h : isGoodBool a = true) :
    pickBool a x = a := by
  cases a with
  | none => simp [isGoodBool] at h
  | some b => rfl

theorem pickBool_drop (a x : Option Bool) (h : isGoodBool a = false) :
    pickBool a x = x := by
  cases a with
  | none => rfl
  | some b => simp [isGoodBool] at h

theorem pickRat_keep (a x : Option Rat) (h : isGoodRat a = true) :
    pickRat a x = a := by
  cases a with
  | none => simp [isGoodRat] at h
  | some q => rfl

theorem pickRat_drop (a x : Option Rat) (h : isGoodRat a = false) :
    pickRat a x = x := by
  cases a with
  | none => rfl
  | some q => simp [isGoodRat] at h

/-- A fold by a keep/replace `pick` returns the first value accepted by
`good`, when one exists. -/
theorem foldPickFirst {α : Type} (pick : Option α → Option α → Option α)
    (good : Option α → Bool)
    (hnone : ∀ x, pick none x = x)
    (hg : ∀ a x, good a = true → pick a x = a)
    (hb : ∀ a x, good a = false → pick a x = x) :
    ∀ (l : List (Option α)) (v : Option α),
      l.find? good = some v → l.foldl pick none = v := by
  have aux1 : ∀ (l : List (Option α)) (a : Option α), good a = true →
      l.foldl pick a = a := by
    intro l
    induction l with
    | nil => intro a _; rfl
    | cons x t ih =>
      intro a ha
      simp only [List.foldl_cons]
      rw [hg a x ha]
      exact ih a ha
  intro l
  induction l with
  | nil => intro v h; simp [List.find?] at h
  | cons x t ih =>
    intro v h
    by_cases hgx : good x = true
    · rw [List.find?_cons_of_pos _ hgx] at h
      injection h with h
      subst h
      simp only [List.foldl_cons, hnone]
      exact aux1 t x hgx
    · rw [List.find?_cons_of_neg _ (by simpa using hgx)] at h
      have hxf : good x = false := by simpa using hgx
      simp only [List.foldl_cons, hnone]
      cases t with
      | nil => simp [List.find?] at h
      | cons y t2 =>
        have h1 : (y :: t2).foldl pick x = (y :: t2).foldl pick none := by
          simp only [List.foldl_cons, hnone, hb x y hxf]
        rw [h1]
        exact ih v h

/-- Projection of the merge fold through a field getter. -/
theorem mergeFold_proj {β : Type} (get : PageFields → β) (pick : β → β → β)
    (hstep : ∀ m f, get (mergeStep m f) = pick (get m) (get f)) :
    ∀ (pages : List PageFields) (m : PageFields),
      get (pages.foldl mergeStep m) = (pages.map get).foldl pick (get m) := by
  intro pages
  induction pages with
  | nil => intro m; rfl
  | cons p t ih =>
    intro m
    simp only [List.foldl_cons, List.map_cons]
    rw [ih, hstep]

/-- First-wins for one string field of the merge. -/
theorem mergeFirstStr (get : PageFields → Option String)
    (hstep : ∀ m f, get (mergeStep m f) = pickStr (get m) (get f))
    (hempty : get emptyFields = none)
    (pages : List PageFields) (v : Option String)
    (h : (pages.map get).find? isGoodStr = some v) :
    get (mergePages pages) = v := by
  have h1 := mergeFold_proj get pickStr hstep pages emptyFields
  rw [hempty] at h1
  rw [mergePages, h1]
  exact foldPickFirst pickStr isGoodStr (fun _ => rfl) pickStr_keep pickStr_drop _ v h

/-- First-wins for one boolean field of the merge. -/
theorem mergeFirstBool (get : PageFields → Option Bool)
    (hstep : ∀ m f, get (mergeStep m f) = pickBool (get m) (get f))
    (hempty : get emptyFields = none)
    (pages : List PageFields) (v : Option Bool)
    (h : (pages.map get).find? isGoodBool = some v) :
    get (mergePages pages) = v := by
  have h1 := mergeFold_proj get pickBool hstep pages emptyFields
  rw [hempty] at h1
  rw [mergePages, h1]
  exact foldPickFirst pickBool isGoodBool (fun _ => rfl) pickBool_keep pickBool_drop _ v h

/-- First-wins for one float field of the merge. -/
theorem mergeFirstRat (get : PageFields → Option Rat)
    (hstep : ∀ m f, get (mergeStep m f) = pickRat (get m) (get f))
    (hempty : get emptyFields = none)
    (pages : List PageFields) (v : Option Rat)
    (h : (pages.map get).find? isGoodRat = some v) :
    get (mergePages pages) = v := by
  have h1 := mergeFold_proj get pickRat hstep pages emptyFields
  rw [hempty] at h1
  rw [mergePages, h1]
  exact foldPickFirst pickRat isGoodRat (fun _ => rfl) pickRat_keep pickRat_drop _ v h

/-- Pages used by the C3 witness: page 1 with every field set. -/
def mergeW1 : PageFields :=
  ⟨some "c1", some "s1", some "f1", some "m1", some "a1", some "x",
   some "g1", some "t1", some "d1", some true, some false,
   [⟨"A", some 10⟩], some 1, some 2, some true⟩

/-- Pages used by the C3 witness: page 2 with conflicting values. -/
def mergeW2 : PageFields :=
  ⟨some "c2", some "s2", some "f2", some "m2", some "a2", some "y",
   some "g2", some "t2", some "d2", some false, some true,
   [⟨"A", some 10⟩, ⟨"B", none⟩], some 3, some 4, some false⟩

/-- C3: for every field other than `other_members`, the merge loop keeps
the value of the earliest page whose value is not null, not the empty
string and not the empty list; later pages never override it. -/
theorem merge_first_wins (pages : List PageFields) :
    (∀ v, (pages.map (·.claimant_name)).find? isGoodStr = some v →
      (mergePages pages).claimant_name = v) ∧
    (∀ v, (pages.map (·.spouse_name)).find? isGoodStr = some v →
      (mergePages pages).spouse_name = v) ∧
    (∀ v, (pages.map (·.father_name)).find? isGoodStr = some v →
      (mergePages pages).father_name = v) ∧
    (∀ v, (pages.map (·.mother_name)).find? isGoodStr = some v →
      (mergePages pages).mother_name = v) ∧
    (∀ v, (pages.map (·.address)).find? isGoodStr = some v →
      (mergePages pages).address = v) ∧
    (∀ v, (pages.map (·.village)).find? isGoodStr = some v →
      (mergePages pages).village = v) ∧
    (∀ v, (pages.map (·.gram_panchayat)).find? isGoodStr = some v →
      (mergePages pages).gram_panchayat = v) ∧
    (∀ v, (pages.map (·.tehsil_taluka)).find? isGoodStr = some v →
      (mergePages pages).tehsil_taluka = v) ∧
    (∀ v, (pages.map (·.district)).find? isGoodStr = some v →
      (mergePages pages).district = v) ∧
    (∀ v, (pages.map (·.scheduled_tribe)).find? isGoodBool = some v →
      (mergePages pages).scheduled_tribe = v) ∧
    (∀ v, (pages.map (·.otfd)).find? isGoodBool = some v →
      (mergePages pages).otfd = v) ∧
    (∀ v, (pages.map (·.habitation_area_ha)).find? isGoodRat = some v →
      (mergePages pages).habitation_area_ha = v) ∧
    (∀ v, (pages.map (·.self_cultivation_area_ha)).find? isGoodRat = some v →
      (mergePages pages).self_cultivation_area_ha = v) ∧
    (∀ v, (pages.map (·.signature_present)).find? isGoodBool = some v →
      (mergePages pages).signature_present = v) :=
  ⟨fun v h => mergeFirstStr (fun f => f.claimant_name) (fun _ _ => rfl) rfl pages v h,
   fun v h => mergeFirstStr (fun f => f.spouse_name) (fun _ _ => rfl) rfl pages v h,
   fun v h => mergeFirstStr (fun f => f.father_name) (fun _ _ => rfl) rfl pages v h,
   fun v h => mergeFirstStr (fun f => f.mother_name) (fun _ _ => rfl) rfl pages v h,
   fun v h => mergeFirstStr (fun f => f.address) (fun _ _ => rfl) rfl pages v h,
   fun v h => mergeFirstStr (fun f => f.village) (fun _ _ => rfl) rfl pages v h,
   fun v h => mergeFirstStr (fun f => f.gram_panchayat) (fun _ _ => rfl) rfl pages v h,
   fun v h => mergeFirstStr (fun f => f.tehsil_taluka) (fun _ _ => rfl) rfl pages v h,
   fun v h => mergeFirstStr (fun f => f.district) (fun _ _ => rfl) rfl pages v h,
   fun v h => mergeFirstBool (fun f => f.scheduled_tribe) (fun _ _ => rfl) rfl pages v h,
   fun v h => mergeFirstBool (fun f => f.otfd) (fun _ _ => rfl) rfl pages v h,
   fun v h => mergeFirstRat (fun f => f.habitation_area_ha) (fun _ _ => rfl) rfl pages v h,
   fun v h => mergeFirstRat (fun f => f.self_cultivation_area_ha) (fun _ _ => rfl) rfl pages v h,
   fun v h => mergeFirstBool (fun f => f.signature_present) (fun _ _ => rfl) rfl pages v h⟩

/-- C3 (witness): two concrete pages with conflicting values merge to page
one's values on every scalar field; in particular `village = "x"` beats
page two's `"y"`. -/
theorem merge_first_wins_witness :
    (mergePages [mergeW1, mergeW2]).claimant_name = some "c1" ∧
    (mergePages [mergeW1, mergeW2]).village = some "x" ∧
    (mergePages [mergeW1, mergeW2]).scheduled_tribe = some true ∧
    (mergePages [mergeW1, mergeW2]).otfd = some false ∧
    (mergePages [mergeW1, mergeW2]).habitation_area_ha = some 1 ∧
    (mergePages [mergeW1, mergeW2]).signature_present = some true :=
  ⟨(merge_first_wins [mergeW1, mergeW2]).1 (some "c1") rfl,
   (merge_first_wins [mergeW1, mergeW2]).2.2.2.2.2.1 (some "x") rfl,
   (merge_first_wins [mergeW1, mergeW2]).2.2.2.2.2.2.2.2.2.1 (some true) rfl,
   (merge_first_wins [mergeW1, mergeW2]).2.2.2.2.2.2.2.2.2.2.1 (some false) rfl,
   (merge_first_wins [mergeW1, mergeW2]).2.2.2.2.2.2.2.2.2.2.2.1 (some 1) rfl,
   (merge_first_wins [mergeW1, mergeW2]).2.2.2.2.2.2.2.2.2.2.2.2.2 (some true) rfl⟩

/-- The specification-side description of the member union: deduplicate the
concatenation of all pages' member lists by `(name, age)` key, keeping the
first occurrence in page order. -/
def dedupByKey (l : List Member) : List Member :=
  l.foldl addMemberStep []

theorem foldl_addMembers_flatten (ls : List (List Member)) :
    ∀ acc, ls.foldl addMembers acc = ls.flatten.foldl addMemberStep acc := by
  induction ls with
  | nil => intro acc; rfl
  | cons l t ih =>
    intro acc
    simp only [List.foldl_cons, List.flatten_cons, List.foldl_append]
    exact ih _

/-- C4: the merged `other_members` list is the union of the pages' member
lists deduplicated by `(name, age)` identity in first-seen page order; in
particular `[{A,10}]` and `[{A,10},{B}]` merge to `[{A,10},{B}]`. -/
theorem merge_members_union :
    (∀ pages : List PageFields,
      (mergePages pages).other_members =
        dedupByKey ((pages.map (·.other_members)).flatten)) ∧
    (mergePages
        [{ emptyFields with other_members := [⟨"A", some 10⟩] },
         { emptyFields with other_members := [⟨"A", some 10⟩, ⟨"B", none⟩] }]
      ).other_members = [⟨"A", some 10⟩, ⟨"B", none⟩] := by
  constructor
  · intro pages
    have h1 := mergeFold_proj (fun f => f.other_members) addMembers
      (fun _ _ => rfl) pages emptyFields
    rw [mergePages, h1]
    exact foldl_addMembers_flatten _ []
  · decide

/-! ## C10: claimant/spouse post-fix -/

/-- C10: when claimant and spouse resolve to the same value after
normalization (non-null values of `extract_page_fields` are never empty,
so the source's truthiness guard is exactly non-nullness), the shared raw
claimant value is re-split: 3 tokens give 2+1, 4 tokens give 2+2, any
other count leaves both unchanged. -/
theorem claimant_spouse_split (cs ss : String)
    (hcs : cs ≠ "") (hss : ss ≠ "")
    (hnorm : normalizeText cs = normalizeText ss) :
    ((pySplit cs).length = 3 →
      fixClaimantSpouse (some cs) (some ss) =
        (some (String.mk (joinSp (((pySplit cs).map String.data).take 2))),
         some ((pySplit cs).getD 2 ""))) ∧
    ((pySplit cs).length = 4 →
      fixClaimantSpouse (some cs) (some ss) =
        (some (String.mk (joinSp (((pySplit cs).map String.data).take 2))),
         some (String.mk (joinSp (((pySplit cs).map String.data).drop 2))))) ∧
    ((pySplit cs).length ≠ 3 → (pySplit cs).length ≠ 4 →
      fixClaimantSpouse (some cs) (some ss) = (some cs, some ss)) := by
  have hem : ∀ t : String, t ≠ "" → t.isEmpty = false := by
    intro t ht
    cases hE : t.isEmpty with
    | false => rfl
    | true => exact absurd ((String.isEmpty_iff t).1 hE) ht
  have hget : ∀ h3 : (pySplit cs).length = 3,
      String.mk (((pySplit cs).map String.data).getD 2 []) = (pySplit cs).getD 2 "" := by
    intro h3
    have hlt : 2 < (pySplit cs).length := by omega
    rw [List.getD_eq_getElem?_getD, List.getD_eq_getElem?_getD,
      List.getElem?_map, List.getElem?_eq_getElem hlt]
    rfl
  refine ⟨?_, ?_, ?_⟩
  · intro h3
    simp only [fixClaimantSpouse]
    split
    · rw [List.length_map, if_pos h3, hget h3]
    · rename_i hc
      exact absurd (by simp [hem cs hcs, hem ss hss, hnorm]) hc
  · intro h4
    simp only [fixClaimantSpouse]
    split
    · rw [List.length_map, if_neg (by omega : ¬(pySplit cs).length = 3),
        if_pos h4]
    · rename_i hc
      exact absurd (by simp [hem cs hcs, hem ss hss, hnorm]) hc
  · intro h3 h4
    simp only [fixClaimantSpouse]
    split
    · rw [List.length_map, if_neg h3, if_neg h4]
    · rfl

/-- C10 (witness): a concrete three-token shared value is split two/one. -/
theorem claimant_spouse_split_witness :
    fixClaimantSpouse (some "ram kumar sita") (some "ram kumar sita") =
      (some "ram kumar", some "sita") :=
  Eq.trans
    ((claimant_spouse_split "ram kumar sita" "ram kumar sita"
      (by decide) (by decide) rfl).1 (by decide))
    (by decide)

/-! ## C6: person-name sanitization example -/

/-- C6 (counterexample): the claimed output `"sh ram kumar"` is wrong — the
stripped punctuation class `[0-9\[\]\(\)\/:,]` does not contain the period,
so the honorific keeps its dot. -/
theorem sanitize_person_example_ne :
    sanitizePersonValue "sh. ram kumar house no 12 village x" ≠ "sh ram kumar" := by
  decide

/-- C6 (amended): `"sh. ram kumar house no 12 village x"` sanitizes to
`"sh. ram kumar"`: blacklisted structural words and digits are blanked, the
period is kept, and the first three remaining tokens are taken. -/
theorem sanitize_person_example :
    sanitizePersonValue "sh. ram kumar house no 12 village x" = "sh. ram kumar" := by
  decide

/-! ## C7: area parsing -/

/-- C7: with the habitation keyword, a single line normalizing to
`"habitation 0.25 ha"` parses to `0.25`, and `"habitation 1 25 ha"` parses
to `1.25` (the space-separated two-digit suffix becomes a decimal
fraction). -/
theorem habitation_area_parsing :
    (∀ ln : Line, normalizeText (String.mk (lineRawText ln)) = "habitation 0.25 ha" →
      numberAfterKeywordWithHa [ln] kwHabitationAt 40 = some 0.25) ∧
    (∀ ln : Line, normalizeText (String.mk (lineRawText ln)) = "habitation 1 25 ha" →
      numberAfterKeywordWithHa [ln] kwHabitationAt 40 = some 1.25) := by
  constructor
  · intro ln h
    simp only [numberAfterKeywordWithHa, scanLines, adjPairs, scanPairs]
    rw [h]
    trans parsePyFloat "0.25".data
    · rfl
    · norm_num +decide [parsePyFloat, digitsToNat, List.takeWhile, List.foldl,
        Char.isDigit, List.drop, Char.toNat,
        show '0'.val.toNat = 48 from rfl, show '2'.val.toNat = 50 from rfl,
        show '5'.val.toNat = 53 from rfl]
  · intro ln h
    simp only [numberAfterKeywordWithHa, scanLines, adjPairs, scanPairs]
    rw [h]
    trans parsePyFloat "1.25".data
    · rfl
    · norm_num +decide [parsePyFloat, digitsToNat, List.takeWhile, List.foldl,
        Char.isDigit, List.drop, Char.toNat,
        show '1'.val.toNat = 49 from rfl, show '0'.val.toNat = 48 from rfl,
        show '2'.val.toNat = 50 from rfl, show '5'.val.toNat = 53 from rfl]

/-- C7 (witness): a concrete one-item line realizes both hypotheses. -/
theorem habitation_area_parsing_witness :
    numberAfterKeywordWithHa [⟨17, [17], [⟨"habitation 0.25 ha", ⟨0, 10, 80, 24⟩⟩]⟩]
        kwHabitationAt 40 = some 0.25 ∧
    numberAfterKeywordWithHa [⟨17, [17], [⟨"habitation 1 25 ha", ⟨0, 10, 80, 24⟩⟩]⟩]
        kwHabitationAt 40 = some 1.25 :=
  ⟨habitation_area_parsing.1 _ (by decide), habitation_area_parsing.2 _ (by decide)⟩

/-! ## C8: yes/no resolution from near text -/

theorem ynCandidates_mem (items : List Item) (aRect : Rect) (pageH : Int) :
    ∀ x ∈ ynCandidates items aRect pageH, x = "yes" ∨ x = "no" := by
  intro x hx
  simp only [ynCandidates] at hx
  split at hx
  · simp at hx
  · rcases List.mem_append.1 hx with hx1 | hx1 <;>
    · split at hx1
      · rename_i ln _
        rcases List.mem_flatMap.1 hx1 with ⟨it, _, hit⟩
        rcases List.mem_append.1 hit with h2 | h2 <;>
        · split at h2 <;> simp_all
      · simp at hx1

/-- C8: `yes_no_from_near_text` scans only the anchor's nearest line and
the following line for isolated yes/no tokens (the harvested candidate
list `ynCandidates`); it returns true iff yes appears without no, false
iff no appears without yes, and null iff both or neither appear. -/
theorem yes_no_from_near_text_cases (items : List Item) (aRect : Rect)
    (pageW pageH : Int) :
    (yesNoFromNearText items aRect pageW pageH = some true ↔
      ("yes" ∈ ynCandidates items aRect pageH ∧
       "no" ∉ ynCandidates items aRect pageH)) ∧
    (yesNoFromNearText items aRect pageW pageH = some false ↔
      ("no" ∈ ynCandidates items aRect pageH ∧
       "yes" ∉ ynCandidates items aRect pageH)) ∧
    (yesNoFromNearText items aRect pageW pageH = none ↔
      ("yes" ∈ ynCandidates items aRect pageH ↔
       "no" ∈ ynCandidates items aRect pageH)) := by
  have hmem := ynCandidates_mem items aRect pageH
  unfold yesNoFromNearText
  by_cases hy : "yes" ∈ ynCandidates items aRect pageH <;>
    by_cases hn : "no" ∈ ynCandidates items aRect pageH
  · have hne : (ynCandidates items aRect pageH).isEmpty = false := by
      cases hE : ynCandidates items aRect pageH with
      | nil => simp [hE] at hy
      | cons a t => rfl
    simp [hne, hy, hn]
  · have hne : (ynCandidates items aRect pageH).isEmpty = false := by
      cases hE : ynCandidates items aRect pageH with
      | nil => simp [hE] at hy
      | cons a t => rfl
    simp [hne, hy, hn]
  · have hne : (ynCandidates items aRect pageH).isEmpty = false := by
      cases hE : ynCandidates items aRect pageH with
      | nil => simp [hE] at hn
      | cons a t => rfl
    simp [hne, hy, hn]
  · have hemp : ynCandidates items aRect pageH = [] := by
      cases hE : ynCandidates items aRect pageH with
      | nil => rfl
      | cons a t =>
        rcases hmem a (by rw [hE]; exact List.mem_cons_self a t) with rfl | rfl
        · exact absurd (by rw [hE]; exact List.mem_cons_self _ _) hy
        · exact absurd (by rw [hE]; exact List.mem_cons_self _ _) hn
    simp [hemp, hy, hn]

/-! ## C5: line grouping -/

theorem insLine_flatten_perm (tol : Int) (it : Item) (lns : List Line) :
    List.Perm (((insLine tol it lns).map Line.items).flatten)
      (((lns.map Line.items).flatten) ++ [it]) := by
  induction lns with
  | nil => simp [insLine]
  | cons ln rest ih =>
    simp only [insLine]
    split
    · simp only [List.map_cons, List.flatten_cons]
      rw [List.append_assoc, List.append_assoc]
      exact List.Perm.append_left ln.items
        (by simpa using
          (@List.perm_append_comm _ [it] ((rest.map Line.items).flatten)))
    · simp only [List.map_cons, List.flatten_cons]
      rw [List.append_assoc]
      exact List.Perm.append_left ln.items ih

theorem fold_insLine_flatten_perm (tol : Int) :
    ∀ (l : List Item) (lns : List Line),
      List.Perm (((l.foldl (fun L i => insLine tol i L) lns).map Line.items).flatten)
        (((lns.map Line.items).flatten) ++ l) := by
  intro l
  induction l with
  | nil => intro lns; simp
  | cons it l2 ih =>
    intro lns
    simp only [List.foldl_cons]
    refine (ih (insLine tol it lns)).trans ?_
    refine List.Perm.trans (List.Perm.append_right l2 (insLine_flatten_perm tol it lns)) ?_
    rw [List.append_assoc]
    exact List.Perm.append_left _ (by simp)

theorem resort_flatten_perm (lns : List Line) :
    List.Perm
      (((lns.map (fun ln => Line.mk ln.y ln.yVals
          (sortByKey (fun it => it.box.x1) ln.items))).map Line.items).flatten)
      ((lns.map Line.items).flatten) := by
  induction lns with
  | nil => simp
  | cons ln rest ih =>
    simp only [List.map_cons, List.flatten_cons]
    exact List.Perm.append (sortByKey_perm _ _) ih

/-- Proof invariant: a line under construction is well-formed and all its
center values are at most the bound `b` (the last processed center). -/
def lnOK (b : Int) (ln : Line) : Prop :=
  ln.yVals ≠ [] ∧ ln.y = medianInt ln.yVals ∧ ∀ v ∈ ln.yVals, v ≤ b

/-- Proof invariant for the first-fit fold: every line is well-formed
under bound `b`, and every non-last line is separated from the bound and
from the next line's centers by more than the tolerance (so it is frozen:
no later token can join it). -/
def InvAux (tol b : Int) : List Line → Prop
  | [] => True
  | [ln] => lnOK b ln
  | ln :: ln2 :: rest =>
    lnOK b ln ∧ ln.y + tol < b ∧ (∀ v ∈ ln2.yVals, ln.y + tol < v) ∧
      InvAux tol b (ln2 :: rest)

theorem InvAux_head (tol b : Int) (ln : Line) (rest : List Line)
    (h : InvAux tol b (ln :: rest)) : lnOK b ln := by
  cases rest with
  | nil => exact h
  | cons ln2 r2 => exact h.1

theorem InvAux_mono (tol b b2 : Int) (hb : b ≤ b2) :
    ∀ lns, InvAux tol b lns → InvAux tol b2 lns := by
  intro lns
  induction lns with
  | nil => intro h; trivial
  | cons ln rest ih =>
    cases rest with
    | nil =>
      intro h
      exact ⟨h.1, h.2.1, fun v hv => le_trans (h.2.2 v hv) hb⟩
    | cons ln2 r2 =>
      intro h
      have hgap := h.2.1
      exact ⟨⟨h.1.1, h.1.2.1, fun v hv => le_trans (h.1.2.2 v hv) hb⟩,
        by omega, h.2.2.1, ih h.2.2.2⟩

theorem medianInt_single (v : Int) : medianInt [v] = v := by
  simp [medianInt, sortByKey, insByKey]

theorem insLine_cons_shape (tol : Int) (it : Item) (ln2 : Line) (r2 : List Line) :
    ∃ h2 t2, insLine tol it (ln2 :: r2) = h2 :: t2 ∧
      ∀ v ∈ h2.yVals, v ∈ ln2.yVals ∨ v = midY it := by
  simp only [insLine]
  split
  · refine ⟨_, _, rfl, ?_⟩
    intro v hv
    rcases List.mem_append.1 hv with h | h
    · exact Or.inl h
    · simp at h
      exact Or.inr h
  · exact ⟨ln2, _, rfl, fun v hv => Or.inl hv⟩


theorem medianInt_le (l : List Int) (hne : l ≠ []) (hi : Int)
    (hhi : ∀ v ∈ l, v ≤ hi) : medianInt l ≤ hi := by
  simp only [medianInt]
  have hperm := sortByKey_perm id l
  have hmem : ∀ i : Nat, i < (sortByKey id l).length →
      (sortByKey id l).getD i 0 ≤ hi := by
    intro i hi2
    have hmemi : (sortByKey id l).getD i 0 ∈ sortByKey id l := by
      rw [List.getD_eq_getElem?_getD, List.getElem?_eq_getElem hi2]
      exact List.getElem_mem hi2
    exact hhi _ (hperm.mem_iff.1 hmemi)
  have hlpos : 0 < (sortByKey id l).length := by
    rw [hperm.length_eq]
    exact List.length_pos.2 hne
  split
  · exact hmem _ (by omega)
  · have b1 := hmem _ (show (sortByKey id l).length / 2 - 1 < _ by omega)
    have b2 := hmem _ (show (sortByKey id l).length / 2 < _ by omega)
    unfold pyHalf
    split <;> omega

theorem le_medianInt (l : List Int) (hne : l ≠ []) (lo : Int)
    (hlo : ∀ v ∈ l, lo ≤ v) : lo ≤ medianInt l := by
  simp only [medianInt]
  have hperm := sortByKey_perm id l
  have hmem : ∀ i : Nat, i < (sortByKey id l).length →
      lo ≤ (sortByKey id l).getD i 0 := by
    intro i hi2
    have hmemi : (sortByKey id l).getD i 0 ∈ sortByKey id l := by
      rw [List.getD_eq_getElem?_getD, List.getElem?_eq_getElem hi2]
      exact List.getElem_mem hi2
    exact hlo _ (hperm.mem_iff.1 hmemi)
  have hlpos : 0 < (sortByKey id l).length := by
    rw [hperm.length_eq]
    exact List.length_pos.2 hne
  split
  · exact hmem _ (by omega)
  · have b1 := hmem _ (show (sortByKey id l).length / 2 - 1 < _ by omega)
    have b2 := hmem _ (show (sortByKey id l).length / 2 < _ by omega)
    unfold pyHalf
    split <;> omega

theorem insLine_step (tol : Int) (it : Item) :
    ∀ lns, InvAux tol (midY it) lns → InvAux tol (midY it) (insLine tol it lns) := by
  intro lns
  induction lns with
  | nil =>
    intro _
    refine ⟨by simp, (medianInt_single (midY it)).symm, ?_⟩
    intro v hv
    simp at hv
    omega
  | cons ln rest ih =>
    intro h
    simp only [insLine]
    split
    · rename_i hjoin
      cases rest with
      | nil =>
        have hok : lnOK (midY it) ln := h
        refine ⟨by simp, rfl, ?_⟩
        intro v hv
        rcases List.mem_append.1 hv with h2 | h2
        · exact hok.2.2 v h2
        · simp at h2
          omega
      | cons ln2 r2 =>
        exfalso
        have hgap := h.2.1
        rw [abs_le] at hjoin
        omega
    · rename_i hsepB
      rw [not_le] at hsepB
      have hok : lnOK (midY it) ln := InvAux_head tol _ ln rest h
      have hyle : ln.y ≤ midY it := by
        have hub := medianInt_le ln.yVals hok.1 (midY it) hok.2.2
        rw [hok.2.1]
        exact hub
      have hgt : ln.y + tol < midY it := by
        rcases abs_cases (ln.y - midY it) with ⟨heq, _⟩ | ⟨heq, _⟩ <;> omega
      cases rest with
      | nil =>
        simp only [insLine]
        refine ⟨hok, hgt, ?_, ?_⟩
        · intro v hv
          simp at hv
          omega
        · exact ih trivial
      | cons ln2 r2 =>
        obtain ⟨h2, t2, heq, hvals⟩ := insLine_cons_shape tol it ln2 r2
        have htl : InvAux tol (midY it) (insLine tol it (ln2 :: r2)) := ih h.2.2.2
        rw [heq] at htl ⊢
        refine ⟨h.1, h.2.1, ?_, htl⟩
        intro v hv
        rcases hvals v hv with h3 | h3
        · exact h.2.2.1 v h3
        · have := h.2.1
          omega

theorem fold_insLine_inv (tol : Int) :
    ∀ (l : List Item), List.Pairwise (fun a c => midY a ≤ midY c) l →
      ∀ (lns : List Line) (b : Int), InvAux tol b lns →
        (∀ i ∈ l, b ≤ midY i) →
        ∃ b2, InvAux tol b2 (l.foldl (fun L i => insLine tol i L) lns) := by
  intro l
  induction l with
  | nil =>
    intro _ lns b h _
    exact ⟨b, h⟩
  | cons it l2 ih =>
    intro hsort lns b h hall
    simp only [List.foldl_cons]
    have h1 : InvAux tol (midY it) lns :=
      InvAux_mono tol b (midY it) (hall it (List.mem_cons_self it l2)) lns h
    have h2 := insLine_step tol it lns h1
    exact ih hsort.of_cons (insLine tol it lns) (midY it) h2
      (fun i hi => (List.pairwise_cons.1 hsort).1 i hi)

theorem InvAux_chain (tol : Int) (htol : 0 ≤ tol) (b : Int) :
    ∀ lns, InvAux tol b lns → List.Chain' (fun a c : Line => a.y ≤ c.y) lns := by
  intro lns
  induction lns with
  | nil => intro _; trivial
  | cons ln rest ih =>
    cases rest with
    | nil => intro _; simp
    | cons ln2 r2 =>
      intro h
      rw [List.chain'_cons]
      refine ⟨?_, ih h.2.2.2⟩
      have hok2 : lnOK b ln2 := InvAux_head tol b ln2 r2 h.2.2.2
      have hlow := le_medianInt ln2.yVals hok2.1 (ln.y + tol + 1)
        (fun v hv => by have := h.2.2.1 v hv; omega)
      rw [← hok2.2.1] at hlow
      omega

theorem fold_insLine_inv_start (tol : Int) (l : List Item)
    (hsort : List.Pairwise (fun a c => midY a ≤ midY c) l) :
    ∃ b2, InvAux tol b2 (l.foldl (fun L i => insLine tol i L) []) := by
  cases l with
  | nil => exact ⟨0, trivial⟩
  | cons it l2 =>
    refine fold_insLine_inv tol (it :: l2) hsort [] (midY it) trivial ?_
    intro i hi
    rcases List.mem_cons.1 hi with rfl | hi2
    · exact le_refl _
    · exact (List.pairwise_cons.1 hsort).1 i hi2

/-- C5: for every token set and positive page height, `group_by_lines`
partitions the tokens (the concatenation of the output lines is a
permutation of the input), the line `y` centers are non-decreasing in
output order, and within each line the items are non-decreasing in
horizontal origin. -/
theorem group_by_lines_partition (items : List Item) (pageH : Int)
    (hH : 0 < pageH) :
    List.Perm (((groupByLines items pageH).map Line.items).flatten) items ∧
    List.Chain' (fun a b : Line => a.y ≤ b.y) (groupByLines items pageH) ∧
    (∀ ln ∈ groupByLines items pageH,
      List.Chain' (fun a b : Item => a.box.x1 ≤ b.box.x1) ln.items) := by
  simp only [groupByLines]
  split
  · rename_i hemp
    rw [List.isEmpty_iff] at hemp
    subst hemp
    refine ⟨by simp, by simp, by simp⟩
  · refine ⟨?_, ?_, ?_⟩
    · refine (resort_flatten_perm _).trans ?_
      refine (fold_insLine_flatten_perm _ _ []).trans ?_
      simpa using sortByKey_perm midY items
    · obtain ⟨b2, hinv⟩ := fold_insLine_inv_start (yTolOf pageH)
        (sortByKey midY items) (sortByKey_sorted midY items)
      have htol : (0 : Int) ≤ yTolOf pageH :=
        le_trans (by norm_num) (le_max_left 10 _)
      have hch := InvAux_chain (yTolOf pageH) htol b2 _ hinv
      rw [List.chain'_map]
      exact hch
    · intro ln hln
      rcases List.mem_map.1 hln with ⟨ln0, _, rfl⟩
      exact (sortByKey_sorted (fun it => it.box.x1) ln0.items).chain'

/-- C5 (witness): a concrete token set exercises the theorem. -/
theorem group_by_lines_partition_witness :
    List.Perm (((groupByLines
        [⟨"a", ⟨40, 30, 60, 40⟩⟩, ⟨"b", ⟨10, 0, 30, 12⟩⟩, ⟨"c", ⟨0, 2, 20, 10⟩⟩]
        500).map Line.items).flatten)
      [⟨"a", ⟨40, 30, 60, 40⟩⟩, ⟨"b", ⟨10, 0, 30, 12⟩⟩, ⟨"c", ⟨0, 2, 20, 10⟩⟩] ∧
    List.Chain' (fun a b : Line => a.y ≤ b.y)
      (groupByLines
        [⟨"a", ⟨40, 30, 60, 40⟩⟩, ⟨"b", ⟨10, 0, 30, 12⟩⟩, ⟨"c", ⟨0, 2, 20, 10⟩⟩] 500) ∧
    (∀ ln ∈ groupByLines
        [⟨"a", ⟨40, 30, 60, 40⟩⟩, ⟨"b", ⟨10, 0, 30, 12⟩⟩, ⟨"c", ⟨0, 2, 20, 10⟩⟩] 500,
      List.Chain' (fun a b : Item => a.box.x1 ≤ b.box.x1) ln.items) :=
  group_by_lines_partition
    [⟨"a", ⟨40, 30, 60, 40⟩⟩, ⟨"b", ⟨10, 0, 30, 12⟩⟩, ⟨"c", ⟨0, 2, 20, 10⟩⟩]
    500 (by decide)

/- ===== C9: idempotence of the stop-label cut ===== -/

/- ===== Character-level lemmas ===== -/

theorem char_isUpper_iff (c : Char) : c.isUpper = true ↔ 65 ≤ c.toNat ∧ c.toNat ≤ 90 := by
  simp [Char.isUpper, UInt32.le_def, BitVec.le_def, Char.toNat, UInt32.toNat]

theorem char_isLower_iff (c : Char) : c.isLower = true ↔ 97 ≤ c.toNat ∧ c.toNat ≤ 122 := by
  simp [Char.isLower, UInt32.le_def, BitVec.le_def, Char.toNat, UInt32.toNat]

theorem char_ofNat_toNat (n : Nat) (h : n < 55296) : (Char.ofNat n).toNat = n := by
  have hv : n.isValidChar := Or.inl h
  rw [Char.ofNat, dif_pos hv]
  simp [Char.ofNatAux, Char.toNat, UInt32.toNat]

theorem char_toLower_toNat (c : Char) :
    c.toLower.toNat = if 65 ≤ c.toNat ∧ c.toNat ≤ 90 then c.toNat + 32 else c.toNat := by
  rw [Char.toLower]
  simp only [ge_iff_le]
  split
  · next h => exact char_ofNat_toNat _ (by omega)
  · rfl

/-- A character case-insensitively equal to a letter is a word character. -/
theorem ci_word {x y : Char} (h : x.toLower = y.toLower) (hy : y.isAlpha = true) :
    isWordChar x = true := by
  have hx := congrArg Char.toNat h
  rw [char_toLower_toNat, char_toLower_toNat] at hx
  have hw : x.isAlpha = true → isWordChar x = true := by
    intro hc
    simp [isWordChar, Char.isAlphanum, hc]
  apply hw
  rw [Char.isAlpha, Bool.or_eq_true, char_isUpper_iff, char_isLower_iff]
  rw [Char.isAlpha, Bool.or_eq_true, char_isUpper_iff, char_isLower_iff] at hy
  split at hx <;> split at hx <;> omega

/-- Python whitespace characters are not word characters. -/
theorem ws_not_word {c : Char} (h : isPySpace c = true) : isWordChar c = false := by
  rw [isPySpace] at h
  simp only [Bool.or_eq_true, decide_eq_true_eq] at h
  rcases h with ((((h | h) | h) | h) | h) | h <;> subst h <;> decide

/- ===== litMatch lemmas ===== -/

/-- A successful literal match decomposes the input as a case-insensitive
copy of the literal followed by the remainder. -/
theorem litMatch_decomp : ∀ (w l r : List Char), litMatch w l = some r →
    ∃ u, l = u ++ r ∧ List.Forall₂ (fun a b => b.toLower = a.toLower) w u := by
  intro w
  induction w with
  | nil =>
    intro l r h
    rw [litMatch] at h
    exact ⟨[], by simpa using h, List.Forall₂.nil⟩
  | cons wc w' ih =>
    intro l r h
    cases l with
    | nil => rw [litMatch] at h; exact absurd h (by simp)
    | cons c cs =>
      rw [litMatch] at h
      split at h
      · next hci =>
        obtain ⟨u, hu, hrel⟩ := ih cs r h
        exact ⟨c :: u, by simp [hu], List.Forall₂.cons hci hrel⟩
      · exact absurd h (by simp)

/-- Conversely, a case-insensitive copy of the literal at the front always
matches, leaving exactly the rest. -/
theorem litMatch_of_rel : ∀ (w u : List Char),
    List.Forall₂ (fun a b => b.toLower = a.toLower) w u →
    ∀ r, litMatch w (u ++ r) = some r := by
  intro w
  induction w with
  | nil =>
    intro u hrel r
    rw [List.forall₂_nil_left_iff] at hrel
    subst hrel
    rfl
  | cons wc w' ih =>
    intro u hrel r
    cases u with
    | nil => exact absurd hrel (by simp)
    | cons c u' =>
      rw [List.forall₂_cons] at hrel
      rw [List.cons_append, litMatch, if_pos hrel.1]
      exact ih u' hrel.2 r

/-- The last elements of `Forall₂`-related lists are related. -/
theorem forall₂_getLast {R : Char → Char → Prop} :
    ∀ (w u : List Char), List.Forall₂ R w u → ∀ a, w.getLast? = some a →
    ∃ b, u.getLast? = some b ∧ R a b := by
  intro w
  induction w with
  | nil => intro u _ a ha; exact absurd ha (by simp)
  | cons wc w' ih =>
    intro u hrel a ha
    cases u with
    | nil => exact absurd hrel (by simp)
    | cons c u' =>
      rw [List.forall₂_cons] at hrel
      obtain ⟨h1, h2⟩ := hrel
      cases w' with
      | nil =>
        rw [List.forall₂_nil_left_iff] at h2
        subst h2
        have ha' : a = wc := by simpa using ha.symm
        subst ha'
        exact ⟨c, by simp, h1⟩
      | cons wd w'' =>
        cases u' with
        | nil => exact absurd h2 (by simp)
        | cons d u'' =>
          rw [List.getLast?_cons_cons] at ha
          obtain ⟨b, hb, hr⟩ := ih (d :: u'') h2 a ha
          exact ⟨b, by rw [List.getLast?_cons_cons]; exact hb, hr⟩

/- ===== wfToks helpers ===== -/

theorem wfToks_opt {c : Char} {ts : List PTok} (h : wfToks (.opt c :: ts) = true) :
    wfToks ts = true := by
  rcases ts with _ | ⟨t2, ts2⟩
  · simp [wfToks] at h
  · cases t2 with
    | lit w2 =>
      cases w2 with
      | nil => simp [wfToks] at h
      | cons x w2' =>
        rw [wfToks] at h
        simp only [Bool.and_eq_true] at h
        exact h.2
    | star p => simp [wfToks] at h
    | plus p => simp [wfToks] at h
    | opt d => simp [wfToks] at h

theorem wfToks_opt_head {c : Char} {ts : List PTok} (h : wfToks (.opt c :: ts) = true) :
    ∃ x w' ts', ts = .lit (x :: w') :: ts' ∧ ¬c.toLower = x.toLower := by
  rcases ts with _ | ⟨t2, ts2⟩
  · simp [wfToks] at h
  · cases t2 with
    | lit w2 =>
      cases w2 with
      | nil => simp [wfToks] at h
      | cons x w2' =>
        rw [wfToks] at h
        simp only [Bool.and_eq_true, bne_iff_ne, ne_eq] at h
        exact ⟨x, w2', ts2, rfl, h.1⟩
    | star p => simp [wfToks] at h
    | plus p => simp [wfToks] at h
    | opt d => simp [wfToks] at h

/- ===== ptoksMatch: decomposition (the remainder is a suffix) ===== -/

theorem ptoksMatch_decomp : ∀ (ts : List PTok) (l r : List Char),
    ptoksMatch ts l = some r → ∃ u, l = u ++ r := by
  intro ts
  induction ts with
  | nil =>
    intro l r h
    rw [ptoksMatch] at h
    exact ⟨[], by simpa using h⟩
  | cons t ts ih =>
    intro l r h
    cases t with
    | lit w =>
      simp only [ptoksMatch] at h
      cases hm : litMatch w l with
      | none => rw [hm] at h; exact absurd h (by simp)
      | some m =>
        rw [hm, Option.some_bind] at h
        obtain ⟨u2, hu2⟩ := ih _ _ h
        obtain ⟨u1, hu1, _⟩ := litMatch_decomp w l m hm
        exact ⟨u1 ++ u2, by rw [hu1, hu2, List.append_assoc]⟩
    | star p =>
      simp only [ptoksMatch] at h
      obtain ⟨u2, hu2⟩ := ih _ _ h
      exact ⟨l.takeWhile p ++ u2,
        by rw [List.append_assoc, ← hu2, List.takeWhile_append_dropWhile]⟩
    | plus p =>
      cases l with
      | nil => simp only [ptoksMatch] at h; exact absurd h (by simp)
      | cons c cs =>
        simp only [ptoksMatch] at h
        split at h
        · obtain ⟨u2, hu2⟩ := ih _ _ h
          exact ⟨c :: (cs.takeWhile p ++ u2),
            by rw [List.cons_append, List.append_assoc, ← hu2,
                   List.takeWhile_append_dropWhile]⟩
        · exact absurd h (by simp)
    | opt c =>
      cases l with
      | nil => simp only [ptoksMatch] at h; exact ih _ _ h
      | cons d ds =>
        simp only [ptoksMatch] at h
        split at h
        · cases hi : ptoksMatch ts ds with
          | some r' =>
            rw [hi] at h
            obtain ⟨u2, hu2⟩ := ih _ _ hi
            have hr : r' = r := by simpa using h
            exact ⟨d :: u2, by rw [List.cons_append, ← hr, ← hu2]⟩
          | none => rw [hi] at h; exact ih _ _ h
        · exact ih _ _ h

/- ===== ptoksMatch: well-formed patterns consume at least one character ===== -/

theorem ptoksMatch_consume : ∀ (ts : List PTok), wfToks ts = true →
    ∀ (l r : List Char), ptoksMatch ts l = some r → r.length < l.length := by
  intro ts
  induction ts with
  | nil => intro hwf; simp [wfToks] at hwf
  | cons t ts ih =>
    intro hwf l r h
    cases t with
    | lit w =>
      simp only [ptoksMatch] at h
      cases hm : litMatch w l with
      | none => rw [hm] at h; exact absurd h (by simp)
      | some m =>
        rw [hm, Option.some_bind] at h
        obtain ⟨u1, hu1, hrel⟩ := litMatch_decomp w l m hm
        cases ts with
        | nil =>
          rw [ptoksMatch] at h
          have hm' : m = r := by simpa using h
          rw [wfToks] at hwf
          cases hg : w.getLast? with
          | none => rw [hg] at hwf; simp at hwf
          | some wc =>
            have hw : w ≠ [] := by
              intro he; rw [he] at hg; simp at hg
            have hlen := hrel.length_eq
            have : 0 < w.length := List.length_pos.2 hw
            rw [hu1, hm']
            simp only [List.length_append]
            omega
        | cons t2 ts2 =>
          rw [wfToks] at hwf
          have h2 := ih hwf m r h
          have : m.length ≤ l.length := by
            rw [hu1]; simp only [List.length_append]; omega
          omega
    | star p =>
      simp only [ptoksMatch] at h
      rw [wfToks] at hwf
      have h2 := ih hwf _ r h
      have hsl : (List.dropWhile p l).length ≤ l.length := (List.dropWhile_suffix p).length_le
      omega
    | plus p =>
      cases l with
      | nil => simp only [ptoksMatch] at h; exact absurd h (by simp)
      | cons c cs =>
        simp only [ptoksMatch] at h
        split at h
        · rw [wfToks] at hwf
          have h2 := ih hwf _ r h
          have hsl : (List.dropWhile p cs).length ≤ cs.length := (List.dropWhile_suffix p).length_le
          simp only [List.length_cons]
          omega
        · exact absurd h (by simp)
    | opt c =>
      have hwf' : wfToks ts = true := wfToks_opt hwf
      cases l with
      | nil =>
        simp only [ptoksMatch] at h
        have := ih hwf' _ _ h
        omega
      | cons d ds =>
        simp only [ptoksMatch] at h
        split at h
        · cases hi : ptoksMatch ts ds with
          | some r' =>
            rw [hi] at h
            have hr : r' = r := by simpa using h
            subst hr
            have := ih hwf' _ _ hi
            simp only [List.length_cons]
            omega
          | none =>
            rw [hi] at h
            exact ih hwf' _ _ h
        · exact ih hwf' _ _ h

/- ===== ptoksMatch: the consumed prefix does not depend on the suffix ===== -/

theorem ptoksMatch_ext : ∀ (ts : List PTok), wfToks ts = true →
    ∀ (u v z : List Char), ptoksMatch ts (u ++ v) = some v →
    ptoksMatch ts (u ++ z) = some z := by
  intro ts
  induction ts with
  | nil => intro hwf; simp [wfToks] at hwf
  | cons t ts ih =>
    intro hwf u v z h
    cases t with
    | lit w =>
      simp only [ptoksMatch] at h ⊢
      cases hm : litMatch w (u ++ v) with
      | none => rw [hm] at h; exact absurd h (by simp)
      | some m =>
        rw [hm, Option.some_bind] at h
        obtain ⟨w1, hw1, hrel⟩ := litMatch_decomp _ _ _ hm
        obtain ⟨u2, hu2⟩ := ptoksMatch_decomp ts m v h
        have hu : u = w1 ++ u2 :=
          List.append_cancel_right (by rw [hw1, hu2, List.append_assoc])
        have hlz : litMatch w (u ++ z) = some (u2 ++ z) := by
          rw [hu, List.append_assoc]
          exact litMatch_of_rel w w1 hrel (u2 ++ z)
        rw [hlz, Option.some_bind]
        cases ts with
        | nil =>
          rw [ptoksMatch] at h
          have hmv : m = v := by simpa using h
          have hu2e : u2 = [] := by
            have h5 : u2 ++ v = [] ++ v := by rw [← hu2, hmv]; rfl
            exact List.append_cancel_right h5
          subst hu2e
          rw [ptoksMatch]
          simp
        | cons t2 ts2 =>
          rw [wfToks] at hwf
          rw [hu2] at h
          exact ih hwf u2 v z h
    | star p =>
      simp only [ptoksMatch] at h ⊢
      rw [wfToks] at hwf
      rw [List.dropWhile_append] at h
      split at h
      · have h1 := ptoksMatch_consume ts hwf _ _ h
        have h2 : (List.dropWhile p v).length ≤ v.length := (List.dropWhile_suffix p).length_le
        omega
      · next he =>
        have h3 := ih hwf _ _ z h
        rw [List.dropWhile_append, if_neg he]
        exact h3
    | plus p =>
      cases u with
      | nil =>
        rw [List.nil_append] at h
        have h1 := ptoksMatch_consume (PTok.plus p :: ts) hwf v v h
        exact absurd h1 (by omega)
      | cons c u' =>
        simp only [List.cons_append, ptoksMatch] at h ⊢
        rw [wfToks] at hwf
        split at h
        · next hpc =>
          rw [if_pos hpc]
          rw [List.dropWhile_append] at h
          split at h
          · have h1 := ptoksMatch_consume ts hwf _ _ h
            have h2 : (List.dropWhile p v).length ≤ v.length := (List.dropWhile_suffix p).length_le
            omega
          · next he =>
            have h3 := ih hwf _ _ z h
            rw [List.dropWhile_append, if_neg he]
            exact h3
        · exact absurd h (by simp)
    | opt c =>
      obtain ⟨x, w', ts', hts, hcx⟩ := wfToks_opt_head hwf
      have hwf' : wfToks ts = true := wfToks_opt hwf
      cases u with
      | nil =>
        rw [List.nil_append] at h
        have h1 := ptoksMatch_consume (PTok.opt c :: ts) hwf v v h
        exact absurd h1 (by omega)
      | cons d u' =>
        simp only [List.cons_append, ptoksMatch] at h ⊢
        split at h
        · next hdc =>
          rw [if_pos hdc]
          cases hi : ptoksMatch ts (u' ++ v) with
          | some r1 =>
            rw [hi] at h
            have hr : r1 = v := by simpa using h
            have h3 := ih hwf' u' v z (hr ▸ hi)
            rw [h3]
          | none =>
            rw [hi] at h
            exfalso
            subst hts
            simp only [ptoksMatch, litMatch] at h
            rw [if_neg (fun hh => hcx (hdc.symm.trans hh))] at h
            simp at h
        · next hdc =>
          rw [if_neg hdc]
          have h3 := ih hwf' (d :: u') v z (by simp only [List.cons_append]; exact h)
          simp only [List.cons_append] at h3
          exact h3

/- ===== ptoksMatch: the consumed prefix ends in a word character ===== -/

theorem ptoksMatch_last_word : ∀ (ts : List PTok), wfToks ts = true →
    ∀ (l r : List Char), ptoksMatch ts l = some r →
    ∃ u ch, l = u ++ r ∧ u.getLast? = some ch ∧ isWordChar ch = true := by
  intro ts
  induction ts with
  | nil => intro hwf; simp [wfToks] at hwf
  | cons t ts ih =>
    intro hwf l r h
    cases t with
    | lit w =>
      simp only [ptoksMatch] at h
      cases hm : litMatch w l with
      | none => rw [hm] at h; exact absurd h (by simp)
      | some m =>
        rw [hm, Option.some_bind] at h
        obtain ⟨u1, hu1, hrel⟩ := litMatch_decomp _ _ _ hm
        cases ts with
        | nil =>
          rw [ptoksMatch] at h
          have hmr : m = r := by simpa using h
          rw [wfToks] at hwf
          cases hg : w.getLast? with
          | none => rw [hg] at hwf; simp at hwf
          | some wc =>
            rw [hg] at hwf
            simp only [Option.elim] at hwf
            obtain ⟨b, hb, hrb⟩ := forall₂_getLast w u1 hrel wc hg
            exact ⟨u1, b, by rw [hu1, hmr], hb, ci_word hrb hwf⟩
        | cons t2 ts2 =>
          rw [wfToks] at hwf
          obtain ⟨u2, ch, hu2, hch, hword⟩ := ih hwf m r h
          refine ⟨u1 ++ u2, ch, ?_, ?_, hword⟩
          · rw [hu1, hu2, List.append_assoc]
          · simp [List.getLast?_append, hch]
    | star p =>
      simp only [ptoksMatch] at h
      rw [wfToks] at hwf
      obtain ⟨u2, ch, hu2, hch, hword⟩ := ih hwf _ _ h
      refine ⟨l.takeWhile p ++ u2, ch, ?_, ?_, hword⟩
      · rw [List.append_assoc, ← hu2, List.takeWhile_append_dropWhile]
      · simp [List.getLast?_append, hch]
    | plus p =>
      cases l with
      | nil => simp only [ptoksMatch] at h; exact absurd h (by simp)
      | cons c cs =>
        simp only [ptoksMatch] at h
        split at h
        · rw [wfToks] at hwf
          obtain ⟨u2, ch, hu2, hch, hword⟩ := ih hwf _ _ h
          refine ⟨c :: (cs.takeWhile p ++ u2), ch, ?_, ?_, hword⟩
          · rw [List.cons_append, List.append_assoc, ← hu2, List.takeWhile_append_dropWhile]
          · rw [show (c :: (cs.takeWhile p ++ u2) : List Char)
                  = (c :: cs.takeWhile p) ++ u2 by simp, List.getLast?_append, hch,
               Option.or_some]
        · exact absurd h (by simp)
    | opt c =>
      have hwf' := wfToks_opt hwf
      cases l with
      | nil =>
        simp only [ptoksMatch] at h
        have h1 := ptoksMatch_consume ts hwf' _ _ h
        simp at h1
      | cons d ds =>
        simp only [ptoksMatch] at h
        split at h
        · cases hi : ptoksMatch ts ds with
          | some r1 =>
            rw [hi] at h
            have hr : r1 = r := by simpa using h
            subst hr
            obtain ⟨u2, ch, hu2, hch, hword⟩ := ih hwf' _ _ hi
            refine ⟨d :: u2, ch, by simp [hu2], ?_, hword⟩
            cases u2 with
            | nil => simp at hch
            | cons e u2' => rw [List.getLast?_cons_cons]; exact hch
          | none =>
            rw [hi] at h
            exact ih hwf' _ _ h
        · exact ih hwf' _ _ h

/- ===== stop-label alternatives: concrete facts ===== -/

/-- Every alternative of `STOP_LABEL_PAT` is well-formed. -/
theorem stopAlts_wf : ∀ ts ∈ stopAlts, wfToks ts = true := by
  intro ts hts
  have h : stopAlts.all wfToks = true := by decide
  exact List.all_eq_true.1 h ts hts

/-- The stop-label pattern never matches an empty text. -/
theorem matchHere_nil (prev : Option Char) : matchHere prev [] = false := by
  have h : (stopAlts.any fun ts => altHit ts []) = false := by decide
  rw [matchHere, h, Bool.and_false]

theorem matchHere_elim {prev : Option Char} {l : List Char}
    (h : matchHere prev l = true) :
    prevOk prev = true ∧
      ∃ ts ∈ stopAlts, ∃ rem, ptoksMatch ts l = some rem ∧ endOk rem = true := by
  rw [matchHere, Bool.and_eq_true, List.any_eq_true] at h
  obtain ⟨h1, ts, hts, h2⟩ := h
  refine ⟨h1, ts, hts, ?_⟩
  rw [altHit] at h2
  cases hm : ptoksMatch ts l with
  | none => rw [hm] at h2; simp at h2
  | some rem => rw [hm] at h2; exact ⟨rem, rfl, h2⟩

theorem matchHere_intro {prev : Option Char} {l : List Char} {ts : List PTok}
    {rem : List Char} (hts : ts ∈ stopAlts) (hp : prevOk prev = true)
    (hm : ptoksMatch ts l = some rem) (he : endOk rem = true) :
    matchHere prev l = true := by
  rw [matchHere, Bool.and_eq_true]
  refine ⟨hp, List.any_eq_true.2 ⟨ts, hts, ?_⟩⟩
  rw [altHit, hm]
  exact he

/- ===== lastCtx ===== -/

theorem lastCtx_cons (prev : Option Char) (c : Char) (u : List Char) :
    lastCtx prev (c :: u) = lastCtx (some c) u := by
  cases u with
  | nil => rfl
  | cons d u' =>
    simp only [lastCtx, List.getLast?_cons_cons]
    cases hg : (d :: u').getLast? with
    | some e => rfl
    | none => rw [List.getLast?_eq_none_iff] at hg; simp at hg

/- ===== the spine of cutCore ===== -/

/-- The function cutCore splits the text into a match-free prefix followed either by
nothing or by a stop-label match. -/
theorem cutCore_spine : ∀ (l : List Char) (prev : Option Char),
    ∃ m, l = cutCore prev l ++ m ∧
      (m = [] ∨ matchHere (lastCtx prev (cutCore prev l)) m = true) := by
  intro l
  induction l with
  | nil => intro prev; exact ⟨[], rfl, Or.inl rfl⟩
  | cons c rest ih =>
    intro prev
    cases hm : matchHere prev (c :: rest) with
    | true =>
      have hcc : cutCore prev (c :: rest) = [] := by rw [cutCore, hm]; rfl
      exact ⟨c :: rest, by rw [hcc]; rfl,
             Or.inr (by rw [hcc]; simpa [lastCtx] using hm)⟩
    | false =>
      obtain ⟨m, hm1, hm2⟩ := ih (some c)
      have hcc : cutCore prev (c :: rest) = c :: cutCore (some c) rest := by
        rw [cutCore, hm]; rfl
      refine ⟨m, ?_, ?_⟩
      · rw [hcc, List.cons_append, ← hm1]
      · rw [hcc, lastCtx_cons]
        exact hm2

/- ===== no new match is created by cutting at the first match ===== -/

theorem matchHere_cutCore {prev : Option Char} {c : Char} {rest : List Char}
    (h : matchHere prev (c :: rest) = false) :
    matchHere prev (c :: cutCore (some c) rest) = false := by
  cases hq : matchHere prev (c :: cutCore (some c) rest) with
  | false => rfl
  | true =>
    exfalso
    obtain ⟨hp, ts, hts, rem, hmt, hend⟩ := matchHere_elim hq
    have hwf := stopAlts_wf ts hts
    obtain ⟨m, hm1, hm2⟩ := cutCore_spine rest (some c)
    rcases hm2 with hnil | hmm
    · subst hnil
      rw [List.append_nil] at hm1
      rw [← hm1] at hmt
      have := matchHere_intro hts hp hmt hend
      rw [h] at this
      simp at this
    · cases hre : rem with
      | nil =>
        subst hre
        obtain ⟨u, ch, hu, hch, hword⟩ := ptoksMatch_last_word ts hwf _ _ hmt
        rw [List.append_nil] at hu
        obtain ⟨hp2, _⟩ := matchHere_elim hmm
        have hl : lastCtx (some c) (cutCore (some c) rest) = some ch := by
          rw [← lastCtx_cons prev]
          simp [lastCtx, hu, hch]
        rw [hl] at hp2
        simp [prevOk, hword] at hp2
      | cons r0 rem' =>
        obtain ⟨u, hu⟩ := ptoksMatch_decomp ts _ _ hmt
        have hext : ptoksMatch ts (u ++ (rem ++ m)) = some (rem ++ m) :=
          ptoksMatch_ext ts hwf u rem (rem ++ m) (by rw [← hu]; exact hmt)
        have hcr : (c :: rest : List Char) = u ++ (rem ++ m) := by
          rw [hm1,
              show (c :: (cutCore (some c) rest ++ m) : List Char)
                = (c :: cutCore (some c) rest) ++ m from rfl,
              hu, List.append_assoc]
        have hend2 : endOk (rem ++ m) = true := by
          rw [hre, List.cons_append]
          rw [hre] at hend
          simpa [endOk] using hend
        have hfull : matchHere prev (c :: rest) = true := by
          rw [hcr]
          exact matchHere_intro hts hp hext hend2
        rw [h] at hfull
        simp at hfull

/- ===== noStop: invariants of cutCore ===== -/

theorem noStop_cutCore : ∀ (l : List Char) (prev : Option Char),
    noStop prev (cutCore prev l) = true := by
  intro l
  induction l with
  | nil => intro prev; rfl
  | cons c rest ih =>
    intro prev
    cases hm : matchHere prev (c :: rest) with
    | true => rw [cutCore, hm]; rfl
    | false =>
      have hcc : cutCore prev (c :: rest) = c :: cutCore (some c) rest := by
        rw [cutCore, hm]; rfl
      rw [hcc, noStop, matchHere_cutCore hm]
      simp only [Bool.not_false, Bool.true_and]
      exact ih (some c)

theorem cutCore_of_noStop : ∀ (l : List Char) (prev : Option Char),
    noStop prev l = true → cutCore prev l = l := by
  intro l
  induction l with
  | nil => intro prev _; rfl
  | cons c rest ih =>
    intro prev h
    rw [noStop, Bool.and_eq_true] at h
    have h1 : matchHere prev (c :: rest) = false := by
      cases hmm : matchHere prev (c :: rest) with
      | false => rfl
      | true => rw [hmm] at h; simp at h
    have hcc : cutCore prev (c :: rest) = c :: cutCore (some c) rest := by
      rw [cutCore, h1]; rfl
    rw [hcc, ih (some c) h.2]

theorem noStop_decomp : ∀ (a : List Char) (prev : Option Char) (b : List Char),
    noStop prev (a ++ b) = true → noStop (lastCtx prev a) b = true := by
  intro a
  induction a with
  | nil => intro prev b h; simpa [lastCtx] using h
  | cons c a' ih =>
    intro prev b h
    rw [List.cons_append, noStop, Bool.and_eq_true] at h
    rw [lastCtx_cons]
    exact ih (some c) b h.2

theorem noStop_head : ∀ {prev : Option Char} {b : List Char},
    noStop prev b = true → matchHere prev b = false := by
  intro prev b h
  cases b with
  | nil => exact matchHere_nil prev
  | cons c rest =>
    cases hmh : matchHere prev (c :: rest) with
    | false => rfl
    | true => rw [noStop, hmh] at h; simp at h

theorem noStop_of_all : ∀ (s : List Char) (prev : Option Char),
    (∀ x y, s = x ++ y → matchHere (lastCtx prev x) y = false) →
    noStop prev s = true := by
  intro s
  induction s with
  | nil => intro prev _; rfl
  | cons c rest ih =>
    intro prev hall
    rw [noStop, Bool.and_eq_true]
    constructor
    · have h0 := hall [] (c :: rest) rfl
      rw [show lastCtx prev [] = prev from rfl] at h0
      simp [h0]
    · apply ih (some c)
      intro x y hxy
      have h1 := hall (c :: x) y (by rw [List.cons_append, hxy])
      rwa [lastCtx_cons] at h1

/- ===== stripping whitespace ===== -/

theorem pyStripWs_decomp (l : List Char) :
    ∃ a b, l = a ++ pyStripWs l ++ b ∧
      (∀ c ∈ a, isPySpace c = true) ∧ (∀ c ∈ b, isPySpace c = true) := by
  have h1 : l = l.takeWhile isPySpace ++ l.dropWhile isPySpace :=
    (List.takeWhile_append_dropWhile isPySpace l).symm
  have h2 : l.dropWhile isPySpace =
      ((l.dropWhile isPySpace).reverse.dropWhile isPySpace).reverse
      ++ ((l.dropWhile isPySpace).reverse.takeWhile isPySpace).reverse := by
    rw [← List.reverse_append, List.takeWhile_append_dropWhile, List.reverse_reverse]
  refine ⟨l.takeWhile isPySpace,
          ((l.dropWhile isPySpace).reverse.takeWhile isPySpace).reverse, ?_, ?_, ?_⟩
  · rw [pyStripWs, pyStripSet, List.append_assoc, ← h2]
    exact h1
  · exact fun c hc => List.mem_takeWhile_imp hc
  · intro c hc
    rw [List.mem_reverse] at hc
    exact List.mem_takeWhile_imp hc

/-- Stripping outer whitespace cannot create a stop-label match. -/
theorem noStop_strip {u : List Char} (h : noStop none u = true) :
    noStop none (pyStripWs u) = true := by
  obtain ⟨a, b, hdec, hA, hB⟩ := pyStripWs_decomp u
  apply noStop_of_all
  intro x y hxy
  cases hq : matchHere (lastCtx none x) y with
  | false => rfl
  | true =>
    exfalso
    obtain ⟨hp, ts, hts, rem, hmt, hend⟩ := matchHere_elim hq
    have hwf := stopAlts_wf ts hts
    obtain ⟨w1, hw1⟩ := ptoksMatch_decomp ts _ _ hmt
    have hext : ptoksMatch ts (w1 ++ (rem ++ b)) = some (rem ++ b) :=
      ptoksMatch_ext ts hwf w1 rem (rem ++ b) (by rw [← hw1]; exact hmt)
    have hend2 : endOk (rem ++ b) = true := by
      cases rem with
      | nil =>
        rw [List.nil_append]
        cases b with
        | nil => rfl
        | cons c0 b' =>
          have hc0 := hB c0 (by simp)
          simp [endOk, ws_not_word hc0]
      | cons r0 rem' =>
        rw [List.cons_append]
        simpa [endOk] using hend
    have hp2 : prevOk (lastCtx none (a ++ x)) = true := by
      cases hxe : x.getLast? with
      | some cx =>
        have hax : (a ++ x).getLast? = some cx := by
          rw [List.getLast?_append, hxe, Option.or_some]
        have e1 : lastCtx none (a ++ x) = some cx := by simp [lastCtx, hax]
        have e2 : lastCtx none x = some cx := by simp [lastCtx, hxe]
        rw [e1, ← e2]
        exact hp
      | none =>
        have hxnil : x = [] := by rwa [List.getLast?_eq_none_iff] at hxe
        subst hxnil
        rw [List.append_nil]
        cases hae : a.getLast? with
        | none => simp [lastCtx, hae, prevOk]
        | some ca =>
          have hca : isPySpace ca = true := hA ca (List.mem_of_mem_getLast? hae)
          simp [lastCtx, hae, prevOk, ws_not_word hca]
    have hyb : (y ++ b : List Char) = w1 ++ (rem ++ b) := by
      rw [hw1, List.append_assoc]
    have hmh : matchHere (lastCtx none (a ++ x)) (y ++ b) = true := by
      rw [hyb]
      exact matchHere_intro hts hp2 hext hend2
    have hu2 : u = (a ++ x) ++ (y ++ b) := by
      rw [hdec, hxy]
      simp [List.append_assoc]
    have hns := noStop_decomp (a ++ x) none (y ++ b) (by rw [← hu2]; exact h)
    have hh := noStop_head hns
    rw [hmh] at hh
    simp at hh

theorem dropWhile_dropWhile (p : Char → Bool) : ∀ (l : List Char),
    (l.dropWhile p).dropWhile p = l.dropWhile p := by
  intro l
  induction l with
  | nil => rfl
  | cons c l' ih =>
    cases hc : p c with
    | true => rw [List.dropWhile_cons, if_pos hc]; exact ih
    | false =>
      have hno : ¬p c = true := by simp [hc]
      rw [List.dropWhile_cons, if_neg hno, List.dropWhile_cons, if_neg hno]

/-- Python `strip` is idempotent. -/
theorem pyStripWs_idem (l : List Char) : pyStripWs (pyStripWs l) = pyStripWs l := by
  have hsfx : ((l.dropWhile isPySpace).reverse.dropWhile isPySpace)
      <:+ (l.dropWhile isPySpace).reverse := List.dropWhile_suffix isPySpace
  have hpfx : pyStripWs l <+: l.dropWhile isPySpace := by
    have h5 := hsfx.reverse
    rwa [List.reverse_reverse] at h5
  have h1 : (pyStripWs l).dropWhile isPySpace = pyStripWs l := by
    cases hs : pyStripWs l with
    | nil => rfl
    | cons s0 s' =>
      obtain ⟨t2, ht2⟩ := hpfx
      rw [hs] at ht2
      have hhead := List.head?_dropWhile_not isPySpace l
      have hm : (l.dropWhile isPySpace).head? = some s0 := by
        rw [← ht2]; rfl
      rw [hm] at hhead
      rw [List.dropWhile_cons, if_neg (by simp [hhead])]
  show pyStripSet isPySpace (pyStripWs l) = pyStripWs l
  rw [pyStripSet, h1]
  have hrev : (pyStripWs l).reverse
      = (l.dropWhile isPySpace).reverse.dropWhile isPySpace := by
    rw [pyStripWs, pyStripSet, List.reverse_reverse]
  rw [hrev, dropWhile_dropWhile, ← hrev, List.reverse_reverse]

/-- C9: the stop-label cut is idempotent — for every string `s`,
`cut_at_next_label(cut_at_next_label(s)) = cut_at_next_label(s)`. -/
theorem cut_at_next_label_idem (s : String) :
    cutAtNextLabel (cutAtNextLabel s) = cutAtNextLabel s := by
  simp only [cutAtNextLabel]
  rw [cutCore_of_noStop _ none (noStop_strip (noStop_cutCore s.data none))]
  rw [pyStripWs_idem]
